import Mathlib

/-!
Shallow embedding of the well-state container of opm-simulators
(`opm/simulators/wells/WellState.cpp`) and proofs of the specification
claims about it.  Doubles are modelled as rationals (`ℚ`), fallible
operations return `Except`/`Option`, and the per-well loops of the source
are translated pass by pass.
-/

set_option maxHeartbeats 1000000
set_option maxRecDepth 4000

namespace Opm

/-- Phases of the black-oil model (`BlackoilPhases`): Aqua = water,
Liquid = oil, Vapour = gas. -/
inductive BlackoilPhase
  | Aqua
  | Liquid
  | Vapour
deriving DecidableEq, Repr

/-- Status of a well (`Well::Status`). -/
inductive WellStatus
  | OPEN
  | STOP
  | SHUT
  | AUTO
deriving DecidableEq, Repr

/-- Injector control modes (`Well::InjectorCMode`). -/
inductive InjectorCMode
  | RATE
  | RESV
  | BHP
  | THP
  | GRUP
  | CMODE_UNDEFINED
deriving DecidableEq, Repr

/-- Producer control modes (`Well::ProducerCMode`). -/
inductive ProducerCMode
  | NONE
  | ORAT
  | WRAT
  | GRAT
  | LRAT
  | CRAT
  | RESV
  | BHP
  | THP
  | GRUP
  | CMODE_UNDEFINED
deriving DecidableEq, Repr

/-- Injected fluid type (`InjectorType`). -/
inductive InjectorType
  | WATER
  | GAS
  | OIL
  | MULTI
deriving DecidableEq, Repr

/-- Phase bookkeeping (`PhaseUsage`): which canonical phases are active and
at which position each one is stored in per-phase rate vectors. -/
structure PhaseUsage where
  num_phases : Nat
  phase_used : BlackoilPhase → Bool
  phase_pos : BlackoilPhase → Nat
  has_solvent : Bool := false
  has_polymer : Bool := false
  has_brine : Bool := false
  has_zFraction : Bool := false

/-- Resolved injection controls of a well
(`Well::injectionControls(summary_state)`). -/
structure InjectionControls where
  cmode : InjectorCMode := .CMODE_UNDEFINED
  injector_type : InjectorType := .WATER
  surface_rate : ℚ := 0
  bhp_limit : ℚ := 0
  thp_limit : ℚ := 0
  temperature : ℚ := 0
  hasControlTHP : Bool := false
deriving Repr

/-- Resolved production controls of a well
(`Well::productionControls(summary_state)`). -/
structure ProductionControls where
  cmode : ProducerCMode := .CMODE_UNDEFINED
  oil_rate : ℚ := 0
  water_rate : ℚ := 0
  gas_rate : ℚ := 0
  bhp_limit : ℚ := 0
  thp_limit : ℚ := 0
  hasControlTHP : Bool := false
deriving Repr

/-- One grid connection of a well in the schedule (`Connection`): whether it
is open and which segment number it attaches to (multi-segment wells). -/
structure EclConnection where
  state_open : Bool := true
  segment : Nat := 0
deriving DecidableEq, Repr

/-- One segment record of a multi-segment well (`Segment`): its segment
number and the segment number of its outlet (`0` for the top segment). -/
structure EclSegment where
  segmentNumber : Nat
  outletSegment : Nat := 0
deriving DecidableEq, Repr

/-- Segment set of a multi-segment well (`WellSegments`). -/
structure WellSegments where
  segs : List EclSegment := []
deriving DecidableEq, Repr

/-- Translation of `WellSegments::segmentNumberToIndex`: position of the
segment with the given segment number. -/
def WellSegments.segmentNumberToIndex (ss : WellSegments) (n : Nat) : Nat :=
  ss.segs.findIdx (fun s => s.segmentNumber == n)

/-- Schedule-level well definition (`Well`), with control targets already
resolved against the summary state. -/
structure Well where
  name : String
  isInjector : Bool
  isProducer : Bool
  status : WellStatus
  inj_controls : InjectionControls := {}
  prod_controls : ProductionControls := {}
  isMultiSegment : Bool := false
  segments : WellSegments := {}
  connections : List EclConnection := []
  alq_value : ℚ := 0

/-- Translation of `Well::getConnections().num_open()`: number of open
connections of the well in the schedule (a global count, independent of the
process-local perforation list). -/
def Well.num_open (w : Well) : Nat :=
  (w.connections.filter (fun c => c.state_open)).length

/-- Parallel partition descriptor of one well (`ParallelWellInfo`).  The
broadcast of the first-perforation cell pressure is an external collective
primitive and is modelled as a function field; `commSize` is the number of
processes sharing the well. -/
structure ParallelWellInfo where
  name : String := ""
  isOwner : Bool := true
  broadcastFirstPerforationValue : ℚ → ℚ := id
  commSize : Nat := 1

instance : Inhabited ParallelWellInfo := ⟨{}⟩

/-- Static per-perforation input data (`PerforationData`). -/
structure PerforationData where
  cell_index : Nat := 0
  connection_transmissibility_factor : ℚ := 0
  satnum_id : Nat := 0
deriving DecidableEq, Repr

instance : Inhabited PerforationData := ⟨{}⟩

/-- Dynamic per-perforation state of one well (`PerfData`), stored as
parallel arrays; `phase_rates` is laid out perforation-major with
`num_phases` entries per perforation. -/
structure PerfData where
  cell_index : List Nat := []
  pressure : List ℚ := []
  rates : List ℚ := []
  phase_rates : List ℚ := []
  prod_index : List ℚ := []
  polymer_rates : List ℚ := []
  brine_rates : List ℚ := []
  solvent_rates : List ℚ := []
  connection_transmissibility_factor : List ℚ := []
  satnum_id : List Nat := []
deriving DecidableEq, Repr

/-- Translation of `PerfData::size()` (number of local perforations). -/
def PerfData.size (pd : PerfData) : Nat := pd.cell_index.length

/-- Modelled from the spec: `PerfData::try_assign` (defined in
`SingleWellState.cpp`, which is not part of the given sources) copies the
per-connection dynamic values positionally from a previous state when the
connection counts match, and does nothing otherwise. -/
def PerfData.try_assign (dst src : PerfData) : PerfData :=
  if dst.size = src.size then
    { dst with
      pressure := src.pressure
      rates := src.rates
      phase_rates := src.phase_rates
      prod_index := src.prod_index
      polymer_rates := src.polymer_rates
      brine_rates := src.brine_rates
      solvent_rates := src.solvent_rates }
  else dst

/-- Per-segment dynamic state of a multi-segment well (`SegmentState`). -/
structure SegmentState where
  segment_number : List Nat := []
  rates : List ℚ := []
  pressure : List ℚ := []
  pressure_drop_friction : List ℚ := []
  pressure_drop_hydrostatic : List ℚ := []
  pressure_drop_accel : List ℚ := []
deriving DecidableEq, Repr

/-- Dynamic state of one well (`SingleWellState`). `events_has_control_event`
models `events.hasEvent(WellState::event_mask)`: whether a control-changing
schedule event was recorded for this well this report step. -/
structure SingleWellState where
  name : String
  parallel_info : ParallelWellInfo
  producer : Bool
  status : WellStatus := .SHUT
  bhp : ℚ := 0
  thp : ℚ := 0
  temperature : ℚ := 0
  surface_rates : List ℚ := []
  reservoir_rates : List ℚ := []
  well_potentials : List ℚ := []
  productivity_index : List ℚ := []
  dissolved_gas_rate : ℚ := 0
  vaporized_oil_rate : ℚ := 0
  injection_cmode : InjectorCMode := .CMODE_UNDEFINED
  production_cmode : ProducerCMode := .CMODE_UNDEFINED
  events_has_control_event : Bool := false
  perf_data : PerfData := {}
  segments : SegmentState := {}

instance : Inhabited SingleWellState :=
  ⟨{ name := "", parallel_info := {}, producer := false }⟩

/-- Modelled from the spec: the `SingleWellState` constructor (defined in
`SingleWellState.cpp`, not part of the given sources) creates the state with
zero rates, pressures and potentials as baseline; per-phase vectors have
`np` entries, the perforation arrays are sized to the local perforation
list with static fields copied from it, and the status is not yet OPEN
(the caller opens it explicitly for OPEN wells). -/
def SingleWellState.mk0 (name : String) (pwinfo : ParallelWellInfo)
    (producer : Bool) (wpd : List PerforationData) (np : Nat)
    (temp : ℚ) : SingleWellState :=
  let n := wpd.length
  { name := name
    parallel_info := pwinfo
    producer := producer
    temperature := temp
    surface_rates := List.replicate np 0
    reservoir_rates := List.replicate np 0
    well_potentials := List.replicate np 0
    productivity_index := List.replicate np 0
    perf_data :=
      { cell_index := wpd.map (fun p => p.cell_index)
        pressure := List.replicate n 0
        rates := List.replicate n 0
        phase_rates := List.replicate (np * n) 0
        prod_index := List.replicate np 0
        polymer_rates := List.replicate n 0
        brine_rates := List.replicate n 0
        solvent_rates := List.replicate n 0
        connection_transmissibility_factor :=
          wpd.map (fun p => p.connection_transmissibility_factor)
        satnum_id := wpd.map (fun p => p.satnum_id) } }

/-- Modelled from the spec: `SingleWellState::stop` (status transition state
machine, §4.2) — sets the status to STOP and zeroes the rates. -/
def SingleWellState.stop (ws : SingleWellState) : SingleWellState :=
  { ws with
    status := .STOP
    surface_rates := List.replicate ws.surface_rates.length 0
    reservoir_rates := List.replicate ws.reservoir_rates.length 0 }

/-- Modelled from the spec: `SingleWellState::shut` — sets the status to
SHUT and zeroes the rates. -/
def SingleWellState.shut (ws : SingleWellState) : SingleWellState :=
  { ws with
    status := .SHUT
    surface_rates := List.replicate ws.surface_rates.length 0
    reservoir_rates := List.replicate ws.reservoir_rates.length 0 }

/-- Modelled from the spec: `SingleWellState::open` — mutates only the
status field. -/
def SingleWellState.openWell (ws : SingleWellState) : SingleWellState :=
  { ws with status := .OPEN }

/-- Modelled from the spec: `SingleWellState::init_timestep` (carryover
warm-start of the pressure-like quantities from the previous timestep's
state of the same well). -/
def SingleWellState.init_timestep (ws prev : SingleWellState) : SingleWellState :=
  if ws.producer ≠ prev.producer then ws
  else if prev.status = .SHUT then ws
  else if ws.status = .SHUT then ws
  else { ws with bhp := prev.bhp, thp := prev.thp, temperature := prev.temperature }

/-- Update one entry of a per-phase surface-rate vector
(`ws.surface_rates[pos] = v`). -/
def SingleWellState.setSurfaceRate (ws : SingleWellState) (pos : Nat) (v : ℚ) :
    SingleWellState :=
  { ws with surface_rates := ws.surface_rates.set pos v }

/-- Translation of the body of `WellState::initSingleWell` after the
producer/injector sanity check has passed.  Mirrors the source contortions:
default temperature, zero-rate baseline, early return for wells with no
local perforations, THP seeding, then the STOP / group-control / own-control
branches. -/
def WellState.initSingleWellOk (cellPressures : List ℚ) (well : Well)
    (well_perf_data : List PerforationData) (well_info : ParallelWellInfo)
    (pu : PhaseUsage) : SingleWellState :=
  let np := pu.num_phases
  let inj_controls := if well.isInjector then well.inj_controls else {}
  let temp : ℚ := if well.isInjector then inj_controls.temperature else 273.15 + 15.56
  let ws := SingleWellState.mk0 well.name well_info well.isProducer well_perf_data np temp
  if ws.perf_data.size = 0 then ws
  else
    let prod_controls := if well.isProducer then well.prod_controls else {}
    let is_bhp : Bool := if well.isInjector then inj_controls.cmode = .BHP
                         else prod_controls.cmode = .BHP
    let bhp_limit := if well.isInjector then inj_controls.bhp_limit else prod_controls.bhp_limit
    let inj_surf_rate := if well.isInjector then inj_controls.surface_rate else 0
    let global_pressure :=
      well_info.broadcastFirstPerforationValue
        (cellPressures.getD (ws.perf_data.cell_index.getD 0 0) 0)
    let ws := if well.status = .OPEN then { ws with status := .OPEN } else ws
    let has_thp : Bool := if well.isInjector then inj_controls.hasControlTHP
                          else prod_controls.hasControlTHP
    let thp_limit := if well.isInjector then inj_controls.thp_limit else prod_controls.thp_limit
    let ws := if has_thp then { ws with thp := thp_limit } else ws
    if well.status = .STOP then
      { ws with bhp := if is_bhp then bhp_limit else global_pressure }
    else
      let is_grup : Bool := if well.isInjector then inj_controls.cmode = .GRUP
                            else prod_controls.cmode = .GRUP
      if is_grup then
        let safety_factor : ℚ := if well.isInjector then 1.01 else 0.99
        { ws with bhp := safety_factor * global_pressure }
      else
        let ws :=
          if well.isInjector then
            if inj_controls.cmode = .RATE then
              match inj_controls.injector_type with
              | .WATER => ws.setSurfaceRate (pu.phase_pos .Aqua) inj_surf_rate
              | .GAS => ws.setSurfaceRate (pu.phase_pos .Vapour) inj_surf_rate
              | .OIL => ws.setSurfaceRate (pu.phase_pos .Liquid) inj_surf_rate
              | .MULTI => ws
            else ws
          else
            match prod_controls.cmode with
            | .ORAT => ws.setSurfaceRate (pu.phase_pos .Liquid) (-prod_controls.oil_rate)
            | .WRAT => ws.setSurfaceRate (pu.phase_pos .Aqua) (-prod_controls.water_rate)
            | .GRAT => ws.setSurfaceRate (pu.phase_pos .Vapour) (-prod_controls.gas_rate)
            | _ => ws
        if is_bhp then { ws with bhp := bhp_limit }
        else
          let safety_factor : ℚ := if well.isInjector then 1.01 else 0.99
          { ws with bhp := safety_factor * global_pressure }

/-- Translation of `WellState::initSingleWell`: rejects a well that is not
exactly one of injector and producer with the source's diagnostic (the
thrown `std::logic_error` is modelled as `Except.error`), otherwise
produces the initialized single-well state. -/
def WellState.initSingleWell (cellPressures : List ℚ) (well : Well)
    (well_perf_data : List PerforationData) (well_info : ParallelWellInfo)
    (pu : PhaseUsage) : Except String SingleWellState :=
  if well.isInjector = well.isProducer then
    .error ("Well must be either producer or injector - logic error for well: " ++ well.name)
  else
    .ok (WellState.initSingleWellOk cellPressures well well_perf_data well_info pu)

instance : Inhabited Well :=
  ⟨{ name := "", isInjector := false, isProducer := true, status := .SHUT }⟩

/-- Per-step schedule data consumed by `WellState::init`: the well names of
the report step and, for each well with a schedule event this step, whether
`wellgroup_events().at(name)` has a control-changing event
(`hasEvent(WellState::event_mask)`). -/
structure ScheduleStep where
  wellNames : List String := []
  wg_events : List (String × Bool) := []

/-- Lookup of a well's control-changing-event flag in the step's event log. -/
def ScheduleStep.eventFlag (sched : ScheduleStep) (n : String) : Option Bool :=
  (sched.wg_events.find? (fun e => e.1 == n)).map (fun e => e.2)

/-- The well-state container (`WellState`): the single-well states in
well-list order, the group-rate communication buffer `well_rates`
(name, is-owner flag, per-phase rates) and the default-ALQ map. -/
structure WellState where
  wells : List SingleWellState := []
  well_rates : List (String × Bool × List ℚ) := []
  alq_default : List (String × ℚ) := []

/-- Translation of `WellState::index`: position of the well with the given
name, if present. -/
def WellState.index (st : WellState) (n : String) : Option Nat :=
  st.wells.findIdx? (fun ws => ws.name == n)

/-- Translation of `well_rates[name].first = owner` (`std::map::operator[]`
inserts a default entry when the name is absent). -/
def wellRatesSetOwner (wr : List (String × Bool × List ℚ)) (name : String)
    (owner : Bool) : List (String × Bool × List ℚ) :=
  if wr.any (fun e => e.1 == name) then
    wr.map (fun e => if e.1 == name then (e.1, owner, e.2.2) else e)
  else wr ++ [(name, owner, [])]

/-- The fresh per-connection initial guess written by `WellState::init`:
one block of `num_phases` entries per local perforation, each block holding
the well's per-phase surface rates divided by the well's global number of
open connections. -/
def freshPerfPhaseRates (surface_rates : List ℚ) (np num_perf g : Nat) : List ℚ :=
  (List.replicate num_perf ((List.range np).map
    (fun p => surface_rates.getD p 0 / (g : ℚ)))).flatten

/-- Translation of the `init` loop that seeds `perf_data.phase_rates` (for
OPEN wells, well rates divided by the global number of open connections)
and `perf_data.pressure` (grid-cell pressures) of one well. -/
def initPerfRatesSingle (cellPressures : List ℚ) (pu : PhaseUsage)
    (ecl_well : Well) (wpd : List PerforationData)
    (ws : SingleWellState) : SingleWellState :=
  let np := pu.num_phases
  let pd := ws.perf_data
  let pd := { pd with pressure := wpd.map (fun p => cellPressures.getD p.cell_index 0) }
  let pd :=
    if ecl_well.status = .OPEN then
      { pd with phase_rates := freshPerfPhaseRates ws.surface_rates np pd.size ecl_well.num_open }
    else pd
  { ws with perf_data := pd }

/-- Translation of the `init` loop that records the active control mode of
each well from its resolved controls. -/
def initCmodeSingle (ecl_well : Well) (ws : SingleWellState) : SingleWellState :=
  if ecl_well.isProducer then
    { ws with production_cmode := ecl_well.prod_controls.cmode }
  else
    { ws with injection_cmode := ecl_well.inj_controls.cmode }

/-- Translation of the `init` loop that applies the status state machine
(`shutWell` / `stopWell` / `openWell`) according to the schedule status. -/
def initStatusSingle (ecl_well : Well) (ws : SingleWellState) : SingleWellState :=
  match ecl_well.status with
  | .SHUT => ws.shut
  | .STOP => ws.stop
  | _ => ws.openWell

/-- Translation of the carryover body of `WellState::init` for one well:
warm-start from the previous container (found by name), skipping wells that
are newly SHUT, were previously SHUT, or flipped producer/injector role,
reusing the previous control mode only when no control-changing event is
recorded, and finally zeroing THP when the well has no THP limit under its
current control. -/
def carryoverSingle (pu : PhaseUsage) (well : Well) (prevSt : WellState)
    (nw : SingleWellState) : SingleWellState :=
  let np := pu.num_phases
  if well.status = .SHUT then nw
  else
    let has_thp : Bool := if well.isInjector then well.inj_controls.hasControlTHP
                          else well.prod_controls.hasControlTHP
    let applyThp := fun (x : SingleWellState) => if ¬ has_thp then { x with thp := 0 } else x
    match prevSt.index well.name with
    | none => applyThp nw
    | some oi =>
      let pw := prevSt.wells.getD oi default
      let nw := nw.init_timestep pw
      if pw.status = .SHUT then nw
      else if nw.producer ≠ pw.producer then nw
      else
        let nw :=
          if ¬ nw.events_has_control_event then
            { nw with injection_cmode := pw.injection_cmode
                      production_cmode := pw.production_cmode }
          else nw
        let nw := { nw with surface_rates := pw.surface_rates
                            reservoir_rates := pw.reservoir_rates
                            well_potentials := pw.well_potentials }
        let num_perf_old_well := pw.perf_data.size
        let num_perf_this_well := nw.perf_data.size
        let nw :=
          if num_perf_this_well = num_perf_old_well then
            { nw with perf_data := nw.perf_data.try_assign pw.perf_data }
          else
            { nw with perf_data :=
              { nw.perf_data with phase_rates :=
                  freshPerfPhaseRates nw.surface_rates np num_perf_this_well well.num_open } }
        let nw := { nw with productivity_index := pw.productivity_index }
        applyThp nw

/-- Translation of `WellState::updateWellsDefaultALQ`: record the default
artificial-lift quantity of every producer. -/
def updateWellsDefaultALQ (wells_ecl : List Well) (m : List (String × ℚ)) :
    List (String × ℚ) :=
  wells_ecl.foldl
    (fun acc well =>
      if well.isProducer then
        if acc.any (fun e => e.1 == well.name) then
          acc.map (fun e => if e.1 == well.name then (e.1, well.alq_value) else e)
        else acc ++ [(well.name, well.alq_value)]
      else acc) m

/-- Translation of `WellState::init`: base initialization of every well,
the group-rate buffer, event flags, fresh per-perforation guesses, control
modes, the status state machine, the carryover from a non-empty previous
container, and the default-ALQ update. -/
def WellState.init (cellPressures : List ℚ) (sched : ScheduleStep)
    (wells_ecl : List Well) (parallel_well_info : List ParallelWellInfo)
    (prevState : Option WellState)
    (well_perf_data : List (List PerforationData)) (pu : PhaseUsage) :
    Except String WellState := do
  let nw := wells_ecl.length
  let ws1 ← (List.range nw).mapM (fun w =>
    WellState.initSingleWell cellPressures (wells_ecl.getD w default)
      (well_perf_data.getD w []) (parallel_well_info.getD w default) pu)
  let wr0 := sched.wellNames.map (fun n => (n, false, List.replicate pu.num_phases (0 : ℚ)))
  let wr := parallel_well_info.foldl (fun acc wi => wellRatesSetOwner acc wi.name wi.isOwner) wr0
  if nw = 0 then
    return { wells := ws1, well_rates := wr }
  else
    let ws2 := (List.range nw).map (fun w =>
      let ws := ws1.getD w default
      match sched.eventFlag (wells_ecl.getD w default).name with
      | some b => { ws with events_has_control_event := b }
      | none => ws)
    let ws3 := (List.range nw).map (fun w =>
      initPerfRatesSingle cellPressures pu (wells_ecl.getD w default)
        (well_perf_data.getD w []) (ws2.getD w default))
    let ws4 := (List.range nw).map (fun w =>
      initCmodeSingle (wells_ecl.getD w default) (ws3.getD w default))
    let ws5 := (List.range nw).map (fun w =>
      initStatusSingle (wells_ecl.getD w default) (ws4.getD w default))
    let ws6 :=
      match prevState with
      | some prevSt =>
        if 0 < prevSt.wells.length then
          (List.range nw).map (fun w =>
            carryoverSingle pu (wells_ecl.getD w default) prevSt (ws5.getD w default))
        else ws5
      | none => ws5
    return { wells := ws6
             well_rates := wr
             alq_default := updateWellsDefaultALQ wells_ecl [] }

/-- Read of a rate array at an index (`segment_rates[i]`), 0 outside. -/
def qget (l : List ℚ) (i : Nat) : ℚ := l.getD i 0

/-- In-place accumulation `l[i] += v`. -/
def addAt (l : List ℚ) (i : Nat) (v : ℚ) : List ℚ := l.set i (qget l i + v)

/-- Translation of the perforation-contribution loop of
`calculateSegmentRates`: `segment_rates[np*segment+p] +=
perforation_rates[np*perf+p]` for every phase `p`. -/
def addPerf (np seg : Nat) (perfRates : List ℚ) (sr : List ℚ) (perf : Nat) : List ℚ :=
  (List.range np).foldl (fun a p => addAt a (np * seg + p) (qget perfRates (np * perf + p))) sr

/-- Translation of the inlet-accumulation loop of `calculateSegmentRates`:
`segment_rates[np*segment+p] += segment_rates[np*inlet_seg+p]` for every
phase `p`. -/
def addInlet (np seg inlet : Nat) (sr : List ℚ) : List ℚ :=
  (List.range np).foldl (fun a p => addAt a (np * seg + p) (qget a (np * inlet + p))) sr

/-- Semantics of `std::vector::resize(n, 0.0)`: truncate or pad with
zeros. -/
def lresize (l : List ℚ) (n : Nat) : List ℚ :=
  l.take n ++ List.replicate (n - l.length) 0

mutual

/-- Translation of `WellState::calculateSegmentRates` (recursive; the C++
recursion is modelled with an explicit fuel argument, `none` meaning the
fuel ran out before the traversal finished).  At the top segment the output
vector is resized to `np * well_nseg` first; then the perforation
contributions of the segment are accumulated, and each inlet segment is
solved recursively and added in. -/
def calcSegAux (inlets perfs : List (List Nat)) (perfRates : List ℚ) (np : Nat) :
    Nat → Nat → List ℚ → Option (List ℚ)
  | 0, _, _ => none
  | fuel + 1, seg, segment_rates =>
    let sr := if seg = 0 then lresize segment_rates (np * inlets.length) else segment_rates
    let sr := (perfs.getD seg []).foldl (fun a perf => addPerf np seg perfRates a perf) sr
    calcInletLoop inlets perfs perfRates np fuel seg (inlets.getD seg []) sr

/-- The inlet loop of `calculateSegmentRates`: recurse into each inlet
segment in order, then add its resulting totals into the current segment. -/
def calcInletLoop (inlets perfs : List (List Nat)) (perfRates : List ℚ) (np : Nat) :
    Nat → Nat → List Nat → List ℚ → Option (List ℚ)
  | _, _, [], sr => some sr
  | fuel, seg, inlet :: rest, sr =>
    match calcSegAux inlets perfs perfRates np fuel inlet sr with
    | none => none
    | some sr2 =>
      calcInletLoop inlets perfs perfRates np fuel seg rest (addInlet np seg inlet sr2)

end

/-- Entry point of `WellState::calculateSegmentRates` as invoked by
`initWellStateMSWell`: start the recursion at the top segment (index 0)
with enough fuel for any acyclic topology (one unit per segment, plus the
initial call). -/
def calculateSegmentRates (inlets perfs : List (List Nat)) (perfRates : List ℚ)
    (np : Nat) (segment_rates : List ℚ) : Option (List ℚ) :=
  calcSegAux inlets perfs perfRates np (inlets.length + 1) 0 segment_rates

/-- Append one value to the `i`-th bucket of a bucket list
(`segment_perforations[i].push_back(v)`). -/
def listAppendAt (l : List (List Nat)) (i : Nat) (v : Nat) : List (List Nat) :=
  l.set i (l.getD i [] ++ [v])

/-- Translation of the `segment_perforations` construction of
`initWellStateMSWell`: walk the completion set, assign each OPEN connection
the next active-perforation index and file it under the segment it attaches
to; also yields `n_activeperf`. -/
def segmentPerforations (segment_set : WellSegments)
    (completion_set : List EclConnection) : List (List Nat) × Nat :=
  completion_set.foldl
    (fun acc conn =>
      if conn.state_open then
        (listAppendAt acc.1 (segment_set.segmentNumberToIndex conn.segment) acc.2,
         acc.2 + 1)
      else acc)
    (List.replicate segment_set.segs.length [], 0)

/-- Translation of the `segment_inlets` construction of
`initWellStateMSWell`: every segment with a positive outlet-segment number
is recorded as an inlet of its outlet. -/
def segmentInlets (segment_set : WellSegments) : List (List Nat) :=
  segment_set.segs.foldl
    (fun acc segment =>
      let segment_number := segment.segmentNumber
      let outlet_segment_number := segment.outletSegment
      if 0 < outlet_segment_number then
        listAppendAt acc (segment_set.segmentNumberToIndex outlet_segment_number)
          (segment_set.segmentNumberToIndex segment_number)
      else acc)
    (List.replicate segment_set.segs.length [])

/-- Modelled from the spec: the `SegmentState{np, segment_set}` constructor
(defined in `SegmentState.cpp`, not part of the given sources) — per-segment
vectors zero-initialized, `np` rate entries per segment, segment numbers
taken from the segment set. -/
def SegmentState.mk0 (np : Nat) (segment_set : WellSegments) : SegmentState :=
  let n := segment_set.segs.length
  { segment_number := segment_set.segs.map (fun s => s.segmentNumber)
    rates := List.replicate (np * n) 0
    pressure := List.replicate n 0
    pressure_drop_friction := List.replicate n 0
    pressure_drop_hydrostatic := List.replicate n 0
    pressure_drop_accel := List.replicate n 0 }

/-- Translation of the gas pre-scaling loop of `initWellStateMSWell`:
`perf_rates[perf*np + gaspos] *= 100` for the first `n_activeperf`
perforations, written in place into the persisted `phase_rates` array. -/
def scaleGasPerfRates (pr : List ℚ) (np gaspos nact : Nat) : List ℚ :=
  (List.range nact).foldl
    (fun l perf => l.set (perf * np + gaspos) (qget l (perf * np + gaspos) * 100)) pr

/-- Translation of the segment-pressure seeding loop of
`initWellStateMSWell`: from segment 1 upward, a segment takes the pressure
of its first attached perforation, or inherits its outlet segment's
(already seeded) pressure when it has none. -/
def segPressureLoop (segment_set : WellSegments)
    (segment_perforations : List (List Nat)) (perf_press : List ℚ)
    (sp0 : List ℚ) : List ℚ :=
  ((List.range segment_set.segs.length).drop 1).foldl
    (fun sp seg =>
      if (segment_perforations.getD seg []).isEmpty then
        sp.set seg
          (sp.getD
            (segment_set.segmentNumberToIndex
              ((segment_set.segs.getD seg { segmentNumber := 0 }).outletSegment)) 0)
      else
        sp.set seg (perf_press.getD ((segment_perforations.getD seg []).getD 0 0) 0))
    sp0

/-- Translation of the previous-state branch at the end of
`initWellStateMSWell` for one well: when a previous state of the same
(multi-segment, not newly SHUT, not previously SHUT) well exists, its whole
segment state is copied over. -/
def msCarryover (well : Well) (prev : Option SingleWellState)
    (ws : SingleWellState) : SingleWellState :=
  match prev with
  | none => ws
  | some prev_ws =>
    if well.status = .SHUT then ws
    else if ¬ well.isMultiSegment then ws
    else if prev_ws.status = .SHUT then ws
    else { ws with segments := prev_ws.segments }

/-- Translation of the per-well body of `WellState::initWellStateMSWell`:
build the segment topology, pre-scale the persisted per-perforation gas
rates by 100, aggregate the segment rates recursively, seed the segment
pressures, and apply the previous-state segment copy.  `none` only when the
segment-rate recursion runs out of fuel (cyclic topology). -/
def initWellStateMSWellSingle (pu : PhaseUsage) (well_ecl : Well)
    (prev : Option SingleWellState) (ws : SingleWellState) :
    Option SingleWellState :=
  let np := pu.num_phases
  if well_ecl.isMultiSegment then
    let segment_set := well_ecl.segments
    let completion_set := well_ecl.connections
    let well_nseg := segment_set.segs.length
    let ws := { ws with segments := SegmentState.mk0 np segment_set }
    let sp := segmentPerforations segment_set completion_set
    let segment_perforations := sp.1
    let n_activeperf := sp.2
    let segment_inlets := segmentInlets segment_set
    let perf_data := ws.perf_data
    let perf_data :=
      if pu.phase_used .Vapour then
        { perf_data with phase_rates :=
            scaleGasPerfRates perf_data.phase_rates np (pu.phase_pos .Vapour) n_activeperf }
      else perf_data
    let ws := { ws with perf_data := perf_data }
    let perforation_rates := perf_data.phase_rates
    match calcSegAux segment_inlets segment_perforations perforation_rates np
        (well_nseg + 1) 0 ws.segments.rates with
    | none => none
    | some seg_rates =>
      let ws := { ws with segments := { ws.segments with rates := seg_rates } }
      let segment_pressure := ws.segments.pressure.set 0 ws.bhp
      let segment_pressure :=
        segPressureLoop segment_set segment_perforations perf_data.pressure segment_pressure
      let ws := { ws with segments := { ws.segments with pressure := segment_pressure } }
      some (msCarryover well_ecl prev ws)
  else
    some (msCarryover well_ecl prev ws)

/-- Keys of per-connection reported rates (`data::Rates::opt`, restricted
to the entries `reportConnections` writes). -/
inductive RateOpt
  | wat
  | oil
  | gas
  | productivity_index_water
  | productivity_index_oil
  | productivity_index_gas
  | polymer
  | brine
  | solvent
deriving DecidableEq, Repr

/-- One reported connection (`data::Connection`); the `rates` container is
modelled as a total map from rate keys, zero when never set. -/
structure DataConnection where
  index : Nat := 0
  pressure : ℚ := 0
  reservoir_rate : ℚ := 0
  trans_factor : ℚ := 0
  rates : RateOpt → ℚ := fun _ => 0

instance : Inhabited DataConnection := ⟨{}⟩

/-- Semantics of `data::Rates::set`. -/
def ratesSet (r : RateOpt → ℚ) (k : RateOpt) (v : ℚ) : RateOpt → ℚ :=
  fun x => if x = k then v else r x

/-- Translation of `WellState::reportConnections`: one record per local
perforation with pressure, reservoir rate and transmissibility factor, then
per-phase surface rates and productivity indices keyed through the `phs` /
`pi` position tables (the value-initialized table entries are modelled as
`wat`; every used phase position overwrites its entry). -/
def reportConnections (pu : PhaseUsage) (ws : SingleWellState)
    (globalCellIdxMap : Nat → Nat) : List DataConnection :=
  let perf_data := ws.perf_data
  let num_perf_well := perf_data.size
  let connections : List DataConnection := (List.range num_perf_well).map
    (fun i =>
      { index := globalCellIdxMap (perf_data.cell_index.getD i 0)
        pressure := perf_data.pressure.getD i 0
        reservoir_rate := perf_data.rates.getD i 0
        trans_factor := perf_data.connection_transmissibility_factor.getD i 0 })
  let np := pu.num_phases
  let tbl0 : List RateOpt × List RateOpt :=
    (List.replicate np .wat, List.replicate np .wat)
  let tbl1 :=
    if pu.phase_used .Aqua then
      (tbl0.1.set (pu.phase_pos .Aqua) .wat,
       tbl0.2.set (pu.phase_pos .Aqua) .productivity_index_water)
    else tbl0
  let tbl2 :=
    if pu.phase_used .Liquid then
      (tbl1.1.set (pu.phase_pos .Liquid) .oil,
       tbl1.2.set (pu.phase_pos .Liquid) .productivity_index_oil)
    else tbl1
  let tbl :=
    if pu.phase_used .Vapour then
      (tbl2.1.set (pu.phase_pos .Vapour) .gas,
       tbl2.2.set (pu.phase_pos .Vapour) .productivity_index_gas)
    else tbl2
  (List.range num_perf_well).map
    (fun local_comp_index =>
      let comp := connections.getD local_comp_index default
      let r := (List.range np).foldl
        (fun r i =>
          let r := ratesSet r (tbl.1.getD i .wat)
            (perf_data.phase_rates.getD (np * local_comp_index + i) 0)
          ratesSet r (tbl.2.getD i .wat) (perf_data.prod_index.getD i 0))
        comp.rates
      let r := if pu.has_polymer then
          ratesSet r .polymer (perf_data.polymer_rates.getD local_comp_index 0) else r
      let r := if pu.has_brine then
          ratesSet r .brine (perf_data.brine_rates.getD local_comp_index 0) else r
      let r := if pu.has_solvent then
          ratesSet r .solvent (perf_data.solvent_rates.getD local_comp_index 0) else r
      { comp with rates := r })

/-- Per-process view of `communicateGroupRates`: the `well_rates` map in
its (shared) iteration order, as (is-owner flag, per-phase rate vector)
per well, and the packed artificial-lift-quantity payload (the ALQ pack /
unpack of `ALQState`, which lives outside the given sources, is modelled
from the spec as a flat vector carried alongside). -/
structure ProcState where
  well_rates : List (Bool × List ℚ) := []
  alq : List ℚ := []
deriving DecidableEq, Repr

/-- One well's contribution to the packed data vector: its rates when this
process owns the well, zeros otherwise. -/
def contribOne (e : Bool × List ℚ) : List ℚ :=
  e.2.map (fun v => if e.1 then v else 0)

/-- Translation of the packing loop of `communicateGroupRates`: all well
contributions in map order, followed by the ALQ payload. -/
def packData (p : ProcState) : List ℚ :=
  p.well_rates.flatMap contribOne ++ p.alq

/-- Elementwise addition of two equally-sized data vectors. -/
def vecAdd (a b : List ℚ) : List ℚ := List.zipWith (fun x y => x + y) a b

/-- Semantics of the collective `comm.sum(data.data(), data.size())`: the
elementwise sum of every process's data vector. -/
def vecSum (vs : List (List ℚ)) (n : Nat) : List ℚ :=
  vs.foldr vecAdd (List.replicate n 0)

/-- Translation of the unpacking loop of `communicateGroupRates`: read each
well's rate vector back out of the reduced data, in map order. -/
def unpackWr : List (Bool × List ℚ) → List ℚ → List (Bool × List ℚ)
  | [], _ => []
  | e :: es, data => (e.1, data.take e.2.length) :: unpackWr es (data.drop e.2.length)

/-- Total number of packed rate entries of a `well_rates` map. -/
def wrLen (wr : List (Bool × List ℚ)) : Nat :=
  (wr.map (fun e => e.2.length)).sum

/-- Unpack the reduced data vector into one process's state (rates first,
then the ALQ payload). -/
def unpackProc (data : List ℚ) (p : ProcState) : ProcState :=
  { well_rates := unpackWr p.well_rates data
    alq := (data.drop (wrLen p.well_rates)).take p.alq.length }

/-- Translation of `WellState::communicateGroupRates` as a whole-system
step: every process packs owner-contributions and the ALQ payload into one
vector, a single sum-reduction combines them, and every process unpacks the
same reduced vector. -/
def communicateGroupRates (procs : List ProcState) : List ProcState :=
  procs.map (fun p => unpackProc (vecSum (procs.map packData) (packData p).length) p)

/-- Translation of the checking/overwriting loop of
`WellState::resetConnectionTransFactors`: walk the new perforation list,
stop with the source's diagnostic at the first cell-index or
saturation-region mismatch, and overwrite the transmissibility factor of
every connection already checked. -/
def resetCTFLoop : PerfData → List PerforationData → Nat → PerfData × Option String
  | perf_data, [], _ => (perf_data, none)
  | perf_data, c :: rest, conn_index =>
    if perf_data.cell_index.getD conn_index 0 ≠ c.cell_index then
      (perf_data, some ("Cell index mismatch in connection " ++ toString conn_index))
    else if perf_data.satnum_id.getD conn_index 0 ≠ c.satnum_id then
      (perf_data, some ("Saturation function table mismatch in connection " ++ toString conn_index))
    else
      resetCTFLoop
        { perf_data with connection_transmissibility_factor :=
            (perf_data.connection_transmissibility_factor.set conn_index
              c.connection_transmissibility_factor) }
        rest (conn_index + 1)

/-- Translation of `WellState::resetConnectionTransFactors` for one well:
the thrown `std::invalid_argument` is modelled as a `some` diagnostic next
to the (partially mutated) perforation state. -/
def resetConnectionTransFactors (perf_data : PerfData)
    (new_perf_data : List PerforationData) : PerfData × Option String :=
  if perf_data.size ≠ new_perf_data.length then
    (perf_data, some "Size mismatch for perforation data in well")
  else resetCTFLoop perf_data new_perf_data 0

/-! Helper lemmas about list indexing used throughout the development. -/

theorem getD_map_apply {α β : Type} (f : α → β) (l : List α) (i : Nat) (d : α) :
    (l.map f).getD i (f d) = f (l.getD i d) := by
  induction l generalizing i with
  | nil => cases i <;> rfl
  | cons a t ih =>
    cases i with
    | zero => rfl
    | succ n => exact ih n

theorem getD_set_self {α : Type} (l : List α) (i : Nat) (v d : α)
    (h : i < l.length) : (l.set i v).getD i d = v := by
  simp [List.getD, List.getElem?_set_self', h]

theorem getD_set_ne {α : Type} (l : List α) (i j : Nat) (v d : α)
    (h : i ≠ j) : (l.set i v).getD j d = l.getD j d := by
  simp [List.getD, List.getElem?_set_ne h]

theorem getD_replicate {α : Type} (n i : Nat) (v d : α) (h : i < n) :
    (List.replicate n v).getD i d = v := by
  simp [List.getD, List.getElem?_replicate, h]

theorem getD_map_range {α : Type} (f : Nat → α) (n w : Nat) (d : α) (h : w < n) :
    ((List.range n).map f).getD w d = f w := by
  simp [List.getD, List.getElem?_map, List.getElem?_range h]

theorem getD_append_left {α : Type} (a b : List α) (i : Nat) (d : α)
    (h : i < a.length) : (a ++ b).getD i d = a.getD i d := by
  simp [List.getD, List.getElem?_append_left h]

theorem getD_append_right {α : Type} (a b : List α) (i : Nat) (d : α)
    (h : a.length ≤ i) : (a ++ b).getD i d = b.getD (i - a.length) d := by
  simp [List.getD, List.getElem?_append_right h]

/-- Concrete three-phase usage (water at 0, oil at 1, gas at 2) used by the
concrete witness instantiations. -/
def puW : PhaseUsage :=
  { num_phases := 3
    phase_used := fun _ => true
    phase_pos := fun ph =>
      match ph with
      | .Aqua => 0
      | .Liquid => 1
      | .Vapour => 2 }

/-- C8: `initSingleWell` fails with the fatal configuration diagnostic
naming the offending well exactly when the well is declared as both or
neither of injector and producer — and in that case no single-well state is
produced at all — while a well that is exactly one of the two never raises
this error. -/
theorem initSingleWell_role_check (cellPressures : List ℚ) (well : Well)
    (wpd : List PerforationData) (wi : ParallelWellInfo) (pu : PhaseUsage) :
    (well.isInjector = well.isProducer →
      WellState.initSingleWell cellPressures well wpd wi pu =
        Except.error
          ("Well must be either producer or injector - logic error for well: " ++ well.name)) ∧
    (well.isInjector ≠ well.isProducer →
      WellState.initSingleWell cellPressures well wpd wi pu =
        Except.ok (WellState.initSingleWellOk cellPressures well wpd wi pu)) := by
  constructor <;> intro h <;> simp [WellState.initSingleWell, h]

/-- Witness for C8: a well declared as both injector and producer is
rejected with the diagnostic naming it; a plain producer is accepted. -/
theorem initSingleWell_role_check_witness :
    WellState.initSingleWell []
        { name := "W1", isInjector := true, isProducer := true, status := .OPEN }
        [] {} puW =
      Except.error
        ("Well must be either producer or injector - logic error for well: " ++ "W1") ∧
    WellState.initSingleWell []
        { name := "W2", isInjector := false, isProducer := true, status := .OPEN }
        [] {} puW =
      Except.ok (WellState.initSingleWellOk []
        { name := "W2", isInjector := false, isProducer := true, status := .OPEN }
        [] {} puW) :=
  ⟨(initSingleWell_role_check []
      { name := "W1", isInjector := true, isProducer := true, status := .OPEN }
      [] {} puW).1 rfl,
   (initSingleWell_role_check []
      { name := "W2", isInjector := false, isProducer := true, status := .OPEN }
      [] {} puW).2 (by decide)⟩

/-- C4: a well whose active control mode is GRUP (and which is not
stopped), with at least one locally-visible open connection, is initialized
with all surface rates zero and bottom-hole pressure equal to the broadcast
first-connection cell pressure scaled by 1.01 for injectors and 0.99 for
producers. -/
theorem initSingleWell_grup (cellPressures : List ℚ) (well : Well)
    (wpd : List PerforationData) (wi : ParallelWellInfo) (pu : PhaseUsage)
    (hrole : well.isInjector ≠ well.isProducer)
    (hperf : wpd ≠ [])
    (hstop : well.status ≠ .STOP)
    (hgrup : if well.isInjector then well.inj_controls.cmode = InjectorCMode.GRUP
             else well.prod_controls.cmode = ProducerCMode.GRUP) :
    ∃ ws, WellState.initSingleWell cellPressures well wpd wi pu = Except.ok ws ∧
      ws.surface_rates = List.replicate pu.num_phases 0 ∧
      ws.bhp = (if well.isInjector then (1.01 : ℚ) else 0.99) *
        wi.broadcastFirstPerforationValue
          (cellPressures.getD ((wpd.getD 0 default).cell_index) 0) := by
  have hlen : ¬ (wpd.length = 0) := by
    intro h
    exact hperf (List.length_eq_zero.mp h)
  have hcell : (Option.map (fun (p : PerforationData) => p.cell_index) wpd[0]?).getD 0 =
      (wpd[0]?.getD default).cell_index := by
    cases wpd[0]? <;> rfl
  refine ⟨WellState.initSingleWellOk cellPressures well wpd wi pu,
    by simp [WellState.initSingleWell, hrole], ?_, ?_⟩ <;>
  · cases hI : well.isInjector <;> cases hP : well.isProducer
    · exact absurd (hI.trans hP.symm) hrole
    · simp only [hI, Bool.false_eq_true, if_false] at hgrup
      simp [WellState.initSingleWellOk, SingleWellState.mk0, PerfData.size, hI, hP,
        hgrup, hstop, hlen, hcell,
        apply_ite SingleWellState.surface_rates, apply_ite SingleWellState.bhp]
    · simp only [hI, if_true] at hgrup
      simp [WellState.initSingleWellOk, SingleWellState.mk0, PerfData.size, hI, hP,
        hgrup, hstop, hlen, hcell,
        apply_ite SingleWellState.surface_rates, apply_ite SingleWellState.bhp]
    · exact absurd (hI.trans hP.symm) hrole

/-- Witness for C4: an injector under GRUP with one connection at cell
pressure 100e5 Pa ends with zero rates and bhp 101e5 Pa. -/
theorem initSingleWell_grup_witness :
    ∃ ws, WellState.initSingleWell [10000000]
        { name := "I1", isInjector := true, isProducer := false,
          status := .OPEN, inj_controls := { cmode := .GRUP } }
        [{ cell_index := 0 }] {} puW = Except.ok ws ∧
      ws.surface_rates = List.replicate 3 0 ∧
      ws.bhp = 10100000 := by
  obtain ⟨ws, h1, h2, h3⟩ := initSingleWell_grup [10000000]
    { name := "I1", isInjector := true, isProducer := false,
      status := .OPEN, inj_controls := { cmode := .GRUP } }
    [{ cell_index := 0 }] {} puW
    (by decide) (by decide) (by decide) (by decide)
  exact ⟨ws, h1, h2, by rw [h3]; norm_num⟩

/-- Core computation: the surface rates produced by `initSingleWellOk` for
a non-stopped well with local perforations, as a function of the active
control mode. -/
theorem initSingleWellOk_surface_rates (cellPressures : List ℚ) (well : Well)
    (wpd : List PerforationData) (wi : ParallelWellInfo) (pu : PhaseUsage)
    (hrole : well.isInjector ≠ well.isProducer)
    (hperf : wpd ≠ [])
    (hstop : well.status ≠ .STOP) :
    (WellState.initSingleWellOk cellPressures well wpd wi pu).surface_rates =
      (if well.isInjector then
        (if well.inj_controls.cmode = .RATE then
          (match well.inj_controls.injector_type with
           | .WATER => (List.replicate pu.num_phases (0 : ℚ)).set (pu.phase_pos .Aqua)
               well.inj_controls.surface_rate
           | .GAS => (List.replicate pu.num_phases (0 : ℚ)).set (pu.phase_pos .Vapour)
               well.inj_controls.surface_rate
           | .OIL => (List.replicate pu.num_phases (0 : ℚ)).set (pu.phase_pos .Liquid)
               well.inj_controls.surface_rate
           | .MULTI => List.replicate pu.num_phases (0 : ℚ))
         else List.replicate pu.num_phases (0 : ℚ))
       else
        (match well.prod_controls.cmode with
         | .ORAT => (List.replicate pu.num_phases (0 : ℚ)).set (pu.phase_pos .Liquid)
             (-well.prod_controls.oil_rate)
         | .WRAT => (List.replicate pu.num_phases (0 : ℚ)).set (pu.phase_pos .Aqua)
             (-well.prod_controls.water_rate)
         | .GRAT => (List.replicate pu.num_phases (0 : ℚ)).set (pu.phase_pos .Vapour)
             (-well.prod_controls.gas_rate)
         | _ => List.replicate pu.num_phases (0 : ℚ))) := by
  have hlen : ¬ (wpd.length = 0) := by
    intro h
    exact hperf (List.length_eq_zero.mp h)
  cases hI : well.isInjector <;> cases hP : well.isProducer
  · exact absurd (hI.trans hP.symm) hrole
  · cases hc : well.prod_controls.cmode <;>
      simp [WellState.initSingleWellOk, SingleWellState.mk0, PerfData.size,
        SingleWellState.setSurfaceRate, hI, hP, hc, hstop, hlen,
        apply_ite SingleWellState.surface_rates]
  · cases hc : well.inj_controls.cmode <;>
      cases ht : well.inj_controls.injector_type <;>
        simp [WellState.initSingleWellOk, SingleWellState.mk0, PerfData.size,
          SingleWellState.setSurfaceRate, hI, hP, hc, ht, hstop, hlen,
          apply_ite SingleWellState.surface_rates]
  · exact absurd (hI.trans hP.symm) hrole

/-- C5: under a single-phase rate control (injector RATE with
water/gas/oil type; producer ORAT/WRAT/GRAT), `initSingleWell` sets the
matching phase's surface rate to the explicit target (negated for
producers) and leaves every other phase at zero; under any other control
mode all surface rates stay zero. -/
theorem initSingleWell_single_phase_rate_control (cellPressures : List ℚ)
    (well : Well) (wpd : List PerforationData) (wi : ParallelWellInfo)
    (pu : PhaseUsage)
    (hrole : well.isInjector ≠ well.isProducer)
    (hperf : wpd ≠ [])
    (hstop : well.status ≠ .STOP)
    (hA : pu.phase_pos .Aqua < pu.num_phases)
    (hL : pu.phase_pos .Liquid < pu.num_phases)
    (hV : pu.phase_pos .Vapour < pu.num_phases) :
    ∃ ws, WellState.initSingleWell cellPressures well wpd wi pu = Except.ok ws ∧
      (well.isInjector = true → well.inj_controls.cmode = .RATE →
        ((well.inj_controls.injector_type = .WATER →
           ws.surface_rates.getD (pu.phase_pos .Aqua) 0 = well.inj_controls.surface_rate ∧
           ∀ j < pu.num_phases, j ≠ pu.phase_pos .Aqua → ws.surface_rates.getD j 0 = 0) ∧
         (well.inj_controls.injector_type = .GAS →
           ws.surface_rates.getD (pu.phase_pos .Vapour) 0 = well.inj_controls.surface_rate ∧
           ∀ j < pu.num_phases, j ≠ pu.phase_pos .Vapour → ws.surface_rates.getD j 0 = 0) ∧
         (well.inj_controls.injector_type = .OIL →
           ws.surface_rates.getD (pu.phase_pos .Liquid) 0 = well.inj_controls.surface_rate ∧
           ∀ j < pu.num_phases, j ≠ pu.phase_pos .Liquid → ws.surface_rates.getD j 0 = 0) ∧
         (well.inj_controls.injector_type = .MULTI →
           ws.surface_rates = List.replicate pu.num_phases 0))) ∧
      (well.isInjector = true → well.inj_controls.cmode ≠ .RATE →
        ws.surface_rates = List.replicate pu.num_phases 0) ∧
      (well.isProducer = true →
        ((well.prod_controls.cmode = .ORAT →
           ws.surface_rates.getD (pu.phase_pos .Liquid) 0 = -well.prod_controls.oil_rate ∧
           ∀ j < pu.num_phases, j ≠ pu.phase_pos .Liquid → ws.surface_rates.getD j 0 = 0) ∧
         (well.prod_controls.cmode = .WRAT →
           ws.surface_rates.getD (pu.phase_pos .Aqua) 0 = -well.prod_controls.water_rate ∧
           ∀ j < pu.num_phases, j ≠ pu.phase_pos .Aqua → ws.surface_rates.getD j 0 = 0) ∧
         (well.prod_controls.cmode = .GRAT →
           ws.surface_rates.getD (pu.phase_pos .Vapour) 0 = -well.prod_controls.gas_rate ∧
           ∀ j < pu.num_phases, j ≠ pu.phase_pos .Vapour → ws.surface_rates.getD j 0 = 0) ∧
         (well.prod_controls.cmode ≠ .ORAT → well.prod_controls.cmode ≠ .WRAT →
           well.prod_controls.cmode ≠ .GRAT →
           ws.surface_rates = List.replicate pu.num_phases 0))) := by
  have hsr := initSingleWellOk_surface_rates cellPressures well wpd wi pu hrole hperf hstop
  refine ⟨WellState.initSingleWellOk cellPressures well wpd wi pu,
    by simp [WellState.initSingleWell, hrole], ?_, ?_, ?_⟩
  · intro hI hc
    refine ⟨?_, ?_, ?_, ?_⟩ <;> intro ht <;> rw [hsr] <;> simp only [hI, hc, ht, if_true]
    · refine ⟨getD_set_self _ _ _ _ (by simpa using hA), ?_⟩
      intro j hj hne
      rw [getD_set_ne _ _ _ _ _ (fun e => hne e.symm)]
      exact getD_replicate _ _ _ _ hj
    · refine ⟨getD_set_self _ _ _ _ (by simpa using hV), ?_⟩
      intro j hj hne
      rw [getD_set_ne _ _ _ _ _ (fun e => hne e.symm)]
      exact getD_replicate _ _ _ _ hj
    · refine ⟨getD_set_self _ _ _ _ (by simpa using hL), ?_⟩
      intro j hj hne
      rw [getD_set_ne _ _ _ _ _ (fun e => hne e.symm)]
      exact getD_replicate _ _ _ _ hj
  · intro hI hc
    rw [hsr]
    simp only [hI, if_true]
    cases hcm : well.inj_controls.cmode
    case RATE => exact absurd hcm hc
    all_goals simp
  · intro hp
    have hI : well.isInjector = false := by
      cases hIx : well.isInjector
      · rfl
      · exact absurd (hIx.trans hp.symm) hrole
    refine ⟨?_, ?_, ?_, ?_⟩
    · intro hc
      rw [hsr]
      simp only [hI, Bool.false_eq_true, if_false, hc]
      refine ⟨getD_set_self _ _ _ _ (by simpa using hL), ?_⟩
      intro j hj hne
      rw [getD_set_ne _ _ _ _ _ (fun e => hne e.symm)]
      exact getD_replicate _ _ _ _ hj
    · intro hc
      rw [hsr]
      simp only [hI, Bool.false_eq_true, if_false, hc]
      refine ⟨getD_set_self _ _ _ _ (by simpa using hA), ?_⟩
      intro j hj hne
      rw [getD_set_ne _ _ _ _ _ (fun e => hne e.symm)]
      exact getD_replicate _ _ _ _ hj
    · intro hc
      rw [hsr]
      simp only [hI, Bool.false_eq_true, if_false, hc]
      refine ⟨getD_set_self _ _ _ _ (by simpa using hV), ?_⟩
      intro j hj hne
      rw [getD_set_ne _ _ _ _ _ (fun e => hne e.symm)]
      exact getD_replicate _ _ _ _ hj
    · intro h1 h2 h3
      rw [hsr]
      simp only [hI, Bool.false_eq_true, if_false]

/-- Witness for C5: a producer under ORAT with target oil rate 5 starts
with oil surface rate -5 and zero water and gas rates. -/
theorem initSingleWell_single_phase_rate_control_witness :
    ∃ ws, WellState.initSingleWell [1000]
        { name := "P1", isInjector := false, isProducer := true,
          status := .OPEN, prod_controls := { cmode := .ORAT, oil_rate := 5 } }
        [{ cell_index := 0 }] {} puW = Except.ok ws ∧
      ws.surface_rates.getD 1 0 = -5 ∧
      ws.surface_rates.getD 0 0 = 0 ∧
      ws.surface_rates.getD 2 0 = 0 := by
  obtain ⟨ws, hok, _, _, hprod⟩ :=
    initSingleWell_single_phase_rate_control [1000]
      { name := "P1", isInjector := false, isProducer := true,
        status := .OPEN, prod_controls := { cmode := .ORAT, oil_rate := 5 } }
      [{ cell_index := 0 }] {} puW
      (by decide) (by decide) (by decide) (by decide) (by decide) (by decide)
  obtain ⟨horat, _, _, _⟩ := hprod rfl
  obtain ⟨hmain, hoth⟩ := horat rfl
  exact ⟨ws, hok, hmain, hoth 0 (by decide) (by decide), hoth 2 (by decide) (by decide)⟩

/-- The reset loop never touches any perforation field other than the
transmissibility factors. -/
theorem resetCTFLoop_fields (cs : List PerforationData) :
    ∀ (pd : PerfData) (t : Nat),
      (resetCTFLoop pd cs t).1.cell_index = pd.cell_index ∧
      (resetCTFLoop pd cs t).1.pressure = pd.pressure ∧
      (resetCTFLoop pd cs t).1.rates = pd.rates ∧
      (resetCTFLoop pd cs t).1.phase_rates = pd.phase_rates ∧
      (resetCTFLoop pd cs t).1.prod_index = pd.prod_index ∧
      (resetCTFLoop pd cs t).1.polymer_rates = pd.polymer_rates ∧
      (resetCTFLoop pd cs t).1.brine_rates = pd.brine_rates ∧
      (resetCTFLoop pd cs t).1.solvent_rates = pd.solvent_rates ∧
      (resetCTFLoop pd cs t).1.satnum_id = pd.satnum_id := by
  induction cs with
  | nil => intro pd t; simp [resetCTFLoop]
  | cons c rest ih =>
    intro pd t
    by_cases h1 : pd.cell_index[t]?.getD 0 = c.cell_index
    · by_cases h2 : pd.satnum_id[t]?.getD 0 = c.satnum_id
      · simpa [resetCTFLoop, h1, h2] using
          ih { pd with connection_transmissibility_factor :=
            (pd.connection_transmissibility_factor.set t
              c.connection_transmissibility_factor) } (t + 1)
      · simp [resetCTFLoop, h1, h2]
    · simp [resetCTFLoop, h1]

/-- When the first mismatch of the reset loop sits at relative position
`k`, the loop reports an error, the transmissibility factors of the `k`
connections already checked hold the new values, and everything else is
untouched. -/
theorem resetCTFLoop_error_state (cs : List PerforationData) :
    ∀ (pd : PerfData) (t k : Nat),
      k < cs.length →
      (∀ j, j < k → pd.cell_index.getD (t + j) 0 = (cs.getD j default).cell_index ∧
          pd.satnum_id.getD (t + j) 0 = (cs.getD j default).satnum_id) →
      (pd.cell_index.getD (t + k) 0 ≠ (cs.getD k default).cell_index ∨
        pd.satnum_id.getD (t + k) 0 ≠ (cs.getD k default).satnum_id) →
      t + k ≤ pd.connection_transmissibility_factor.length →
      (resetCTFLoop pd cs t).2.isSome = true ∧
      (∀ j, j < k →
        (resetCTFLoop pd cs t).1.connection_transmissibility_factor.getD (t + j) 0 =
          (cs.getD j default).connection_transmissibility_factor) ∧
      (∀ i, i < t ∨ t + k ≤ i →
        (resetCTFLoop pd cs t).1.connection_transmissibility_factor.getD i 0 =
          pd.connection_transmissibility_factor.getD i 0) := by
  induction cs with
  | nil =>
    intro pd t k hk
    exact absurd hk (Nat.not_lt_zero k)
  | cons c rest ih =>
    intro pd t k hk hpre hmis hlen
    cases k with
    | zero =>
      by_cases h1 : pd.cell_index[t]?.getD 0 = c.cell_index
      · have h2 : ¬ (pd.satnum_id[t]?.getD 0 = c.satnum_id) := by
          rcases hmis with hm | hm
          · exact absurd h1 (by simpa using hm)
          · simpa using hm
        refine ⟨by simp [resetCTFLoop, h1, h2], ?_, ?_⟩
        · intro j hj
          exact absurd hj (Nat.not_lt_zero j)
        · intro i _
          simp [resetCTFLoop, h1, h2]
      · refine ⟨by simp [resetCTFLoop, h1], ?_, ?_⟩
        · intro j hj
          exact absurd hj (Nat.not_lt_zero j)
        · intro i _
          simp [resetCTFLoop, h1]
    | succ j =>
      have h0 := hpre 0 (Nat.succ_pos j)
      have h1 : pd.cell_index[t]?.getD 0 = c.cell_index := by
        simpa using h0.1
      have h2 : pd.satnum_id[t]?.getD 0 = c.satnum_id := by
        simpa using h0.2
      set pd' : PerfData :=
        { pd with connection_transmissibility_factor :=
            (pd.connection_transmissibility_factor.set t
              c.connection_transmissibility_factor) } with hpd'
      have hstep : resetCTFLoop pd (c :: rest) t = resetCTFLoop pd' rest (t + 1) := by
        simp [resetCTFLoop, h1, h2, hpd']
      have hlen' : pd'.connection_transmissibility_factor.length =
          pd.connection_transmissibility_factor.length := by
        simp [hpd']
      have ihq := ih pd' (t + 1) j (Nat.lt_of_succ_lt_succ hk)
        (by
          intro j' hj'
          have := hpre (j' + 1) (Nat.succ_lt_succ hj')
          simpa [hpd', Nat.add_assoc, Nat.add_comm 1 j'] using this)
        (by
          have := hmis
          simpa [hpd', Nat.add_assoc, Nat.add_comm 1 j] using this)
        (by omega)
      refine ⟨?_, ?_, ?_⟩
      · rw [hstep]; exact ihq.1
      · intro j' hj'
        rw [hstep]
        cases j' with
        | zero =>
          have hb := ihq.2.2 t (Or.inl (Nat.lt_succ_self t))
          have hset : (pd.connection_transmissibility_factor.set t
              c.connection_transmissibility_factor)[t]?.getD 0 =
              c.connection_transmissibility_factor := by
            simpa using getD_set_self pd.connection_transmissibility_factor t
              c.connection_transmissibility_factor 0 (by omega)
          simpa [hset] using hb
        | succ j'' =>
          have ha := ihq.2.1 j'' (Nat.lt_of_succ_lt_succ hj')
          have he : t + (j'' + 1) = t + 1 + j'' := by omega
          rw [he, ha]
          rfl
      · intro i hi
        rw [hstep]
        have hb := ihq.2.2 i (by omega)
        have hset : pd'.connection_transmissibility_factor.getD i 0 =
            pd.connection_transmissibility_factor.getD i 0 := by
          rw [hpd']
          exact getD_set_ne _ _ _ _ _ (by omega)
        rw [hb, hset]

/-- C9: `resetConnectionTransFactors` is not atomic on error — with
matching sizes and the first cell-index or saturation-region mismatch at
connection `k > 0`, the error is raised with the transmissibility factors
of connections `0..k-1` already overwritten by the new values and the rest
unchanged, and no other perforation field is ever modified. -/
theorem resetConnectionTransFactors_partial_mutation (pd : PerfData)
    (new_perf_data : List PerforationData) (k : Nat)
    (hsize : pd.size = new_perf_data.length)
    (hctf : pd.connection_transmissibility_factor.length = pd.size)
    (hkpos : 0 < k) (hk : k < new_perf_data.length)
    (hpre : ∀ j, j < k →
      pd.cell_index.getD j 0 = (new_perf_data.getD j default).cell_index ∧
      pd.satnum_id.getD j 0 = (new_perf_data.getD j default).satnum_id)
    (hmis : pd.cell_index.getD k 0 ≠ (new_perf_data.getD k default).cell_index ∨
      pd.satnum_id.getD k 0 ≠ (new_perf_data.getD k default).satnum_id) :
    (resetConnectionTransFactors pd new_perf_data).2.isSome = true ∧
    (∀ j, j < k →
      (resetConnectionTransFactors pd new_perf_data).1.connection_transmissibility_factor.getD j 0 =
        (new_perf_data.getD j default).connection_transmissibility_factor) ∧
    (∀ i, k ≤ i →
      (resetConnectionTransFactors pd new_perf_data).1.connection_transmissibility_factor.getD i 0 =
        pd.connection_transmissibility_factor.getD i 0) ∧
    (resetConnectionTransFactors pd new_perf_data).1.cell_index = pd.cell_index ∧
    (resetConnectionTransFactors pd new_perf_data).1.pressure = pd.pressure ∧
    (resetConnectionTransFactors pd new_perf_data).1.rates = pd.rates ∧
    (resetConnectionTransFactors pd new_perf_data).1.phase_rates = pd.phase_rates ∧
    (resetConnectionTransFactors pd new_perf_data).1.prod_index = pd.prod_index ∧
    (resetConnectionTransFactors pd new_perf_data).1.polymer_rates = pd.polymer_rates ∧
    (resetConnectionTransFactors pd new_perf_data).1.brine_rates = pd.brine_rates ∧
    (resetConnectionTransFactors pd new_perf_data).1.solvent_rates = pd.solvent_rates ∧
    (resetConnectionTransFactors pd new_perf_data).1.satnum_id = pd.satnum_id := by
  have hdef : resetConnectionTransFactors pd new_perf_data =
      resetCTFLoop pd new_perf_data 0 := by
    simp [resetConnectionTransFactors, hsize]
  have herr := resetCTFLoop_error_state new_perf_data pd 0 k hk
    (by intro j hj; simpa using hpre j hj)
    (by simpa using hmis)
    (by omega)
  have hfields := resetCTFLoop_fields new_perf_data pd 0
  rw [hdef]
  exact ⟨herr.1,
    fun j hj => by simpa using herr.2.1 j hj,
    fun i hi => herr.2.2 i (Or.inr (by omega)),
    hfields.1, hfields.2.1, hfields.2.2.1, hfields.2.2.2.1,
    hfields.2.2.2.2.1, hfields.2.2.2.2.2.1, hfields.2.2.2.2.2.2.1,
    hfields.2.2.2.2.2.2.2.1, hfields.2.2.2.2.2.2.2.2⟩

/-- Concrete perforation state for the C9 witness: three connections with
transmissibility factors 10, 20, 30. -/
def pdW : PerfData :=
  { cell_index := [1, 2, 3]
    pressure := [0, 0, 0]
    rates := [0, 0, 0]
    connection_transmissibility_factor := [10, 20, 30]
    satnum_id := [0, 0, 0] }

/-- Concrete replacement list for the C9 witness: first two connections
match, the third has a wrong cell index. -/
def newW : List PerforationData :=
  [{ cell_index := 1, connection_transmissibility_factor := 11 },
   { cell_index := 2, connection_transmissibility_factor := 22 },
   { cell_index := 99, connection_transmissibility_factor := 33 }]

/-- Witness for C9: with the first mismatch at connection 2, the error is
raised after connections 0 and 1 already hold the new factors 11 and 22,
connection 2 keeps its old factor 30, and the cell indices are untouched. -/
theorem resetConnectionTransFactors_partial_mutation_witness :
    (resetConnectionTransFactors pdW newW).2.isSome = true ∧
    (resetConnectionTransFactors pdW newW).1.connection_transmissibility_factor.getD 0 0 = 11 ∧
    (resetConnectionTransFactors pdW newW).1.connection_transmissibility_factor.getD 1 0 = 22 ∧
    (resetConnectionTransFactors pdW newW).1.connection_transmissibility_factor.getD 2 0 = 30 ∧
    (resetConnectionTransFactors pdW newW).1.cell_index = pdW.cell_index := by
  obtain ⟨hs, hnew, hold, hcell, -⟩ :=
    resetConnectionTransFactors_partial_mutation pdW newW 2
      (by decide) (by decide) (by decide) (by decide)
      (by decide) (by decide)
  exact ⟨hs, hnew 0 (by decide), hnew 1 (by decide), hold 2 (by decide), hcell⟩

/-! Lemmas about the elementwise sum used by `communicateGroupRates`. -/

theorem vecSum_cons (v : List ℚ) (vs : List (List ℚ)) (n : Nat) :
    vecSum (v :: vs) n = vecAdd v (vecSum vs n) := rfl

theorem vecSum_length (vs : List (List ℚ)) (n : Nat)
    (h : ∀ v ∈ vs, v.length = n) : (vecSum vs n).length = n := by
  induction vs with
  | nil => simp [vecSum]
  | cons v vs ih =>
    have hv := h v (List.mem_cons_self v vs)
    have ht := ih (fun w hw => h w (List.mem_cons_of_mem v hw))
    rw [vecSum_cons]
    simp only [vecAdd, List.length_zipWith, hv, ht, Nat.min_self]

theorem vecAdd_append (a b x y : List ℚ) (h : a.length = x.length) :
    vecAdd (a ++ b) (x ++ y) = vecAdd a x ++ vecAdd b y := by
  induction a generalizing x with
  | nil =>
    cases x with
    | nil => rfl
    | cons _ _ => simp at h
  | cons a0 a ih =>
    cases x with
    | nil => simp at h
    | cons x0 x =>
      simp only [List.cons_append, vecAdd, List.zipWith_cons_cons]
      rw [← vecAdd, ← vecAdd, ← vecAdd, ih x (by simpa using h)]

theorem vecSum_map_append {α : Type} (vs : List α) (f g : α → List ℚ) (A B : Nat)
    (hf : ∀ v ∈ vs, (f v).length = A) (hg : ∀ v ∈ vs, (g v).length = B) :
    vecSum (vs.map (fun v => f v ++ g v)) (A + B) =
      vecSum (vs.map f) A ++ vecSum (vs.map g) B := by
  induction vs with
  | nil => exact List.replicate_add A B 0
  | cons v vs ih =>
    have hfv := hf v (List.mem_cons_self v vs)
    have ihx := ih (fun w hw => hf w (List.mem_cons_of_mem v hw))
      (fun w hw => hg w (List.mem_cons_of_mem v hw))
    have hlen : (vecSum (vs.map f) A).length = A := by
      apply vecSum_length
      intro w hw
      obtain ⟨u, hu, rfl⟩ := List.mem_map.mp hw
      exact hf u (List.mem_cons_of_mem v hu)
    simp only [List.map_cons, vecSum_cons]
    rw [ihx, vecAdd_append _ _ _ _ (hfv.trans hlen.symm)]

/-- Adding a vector of zeros on the right is the identity. -/
theorem vecAdd_zero_right (v : List ℚ) (n : Nat) (h : v.length = n) :
    vecAdd v (List.replicate n 0) = v := by
  induction v generalizing n with
  | nil => simp [vecAdd]
  | cons a t ih =>
    cases n with
    | zero => simp at h
    | succ m =>
      simp only [List.replicate_succ, vecAdd, List.zipWith_cons_cons, add_zero]
      rw [← vecAdd, ih m (by simpa using h)]

/-- Adding a vector of zeros on the left is the identity. -/
theorem vecAdd_zero_left (r : List ℚ) (x : List ℚ) (h : r.length = x.length) :
    vecAdd (r.map (fun _ => (0 : ℚ))) x = x := by
  induction r generalizing x with
  | nil =>
    cases x with
    | nil => rfl
    | cons _ _ => simp at h
  | cons a t ih =>
    cases x with
    | nil => simp at h
    | cons x0 x =>
      simp only [List.map_cons, vecAdd, List.zipWith_cons_cons, zero_add]
      rw [← vecAdd, ih x (by simpa using h)]

theorem getD_succ_tail {α : Type} (l : List α) (k : Nat) (d : α) :
    l.getD (k + 1) d = l.tail.getD k d := by
  cases l <;> rfl

theorem flatMap_contribOne_length (l : List (Bool × List ℚ)) :
    (l.flatMap contribOne).length = (l.map (fun e => e.2.length)).sum := by
  induction l with
  | nil => rfl
  | cons e t ih =>
    simp [contribOne, ih]

/-- The elementwise sum of all-zero contributions is the zero vector. -/
theorem vecSum_contrib_zero (es : List (Bool × List ℚ)) (n : Nat)
    (hlen : ∀ e ∈ es, e.2.length = n) (hflag : ∀ e ∈ es, e.1 = false) :
    vecSum (es.map contribOne) n = List.replicate n 0 := by
  induction es with
  | nil => rfl
  | cons e es ih =>
    have he : e.1 = false := hflag e (List.mem_cons_self e es)
    have hl : e.2.length = n := hlen e (List.mem_cons_self e es)
    rw [List.map_cons, vecSum_cons,
      ih (fun x hx => hlen x (List.mem_cons_of_mem e hx))
         (fun x hx => hflag x (List.mem_cons_of_mem e hx))]
    obtain ⟨b, r⟩ := e
    cases b
    · have hco : contribOne (false, r) = r.map (fun _ => (0 : ℚ)) := by
        simp [contribOne]
      rw [hco]
      exact vecAdd_zero_left r (List.replicate n 0) (by simpa using hl)
    · simp at he

/-- With exactly one owner in a column, the elementwise sum of the
contributions is the owner's rate vector. -/
theorem vecSum_contrib_owner (es : List (Bool × List ℚ)) (n : Nat)
    (hlen : ∀ e ∈ es, e.2.length = n)
    (hone : (es.map (fun e => e.1)).count true = 1) :
    ∀ e ∈ es, e.1 = true → vecSum (es.map contribOne) n = e.2 := by
  induction es with
  | nil =>
    intro e he
    simp at he
  | cons e0 es ih =>
    intro e he hflag
    rcases List.mem_cons.mp he with rfl | hmem
    · have hrest : (es.map (fun e => e.1)).count true = 0 := by
        simp only [List.map_cons, List.count_cons, hflag] at hone
        simpa using hone
      have hallf : ∀ x ∈ es, x.1 = false := by
        intro x hx
        have hnot : true ∉ es.map (fun e => e.1) := List.count_eq_zero.mp hrest
        cases hx1 : x.1
        · rfl
        · exact absurd (hx1 ▸ List.mem_map_of_mem (fun e => e.1) hx) hnot
      rw [List.map_cons, vecSum_cons,
        vecSum_contrib_zero es n (fun x hx => hlen x (List.mem_cons_of_mem _ hx)) hallf]
      obtain ⟨b, r⟩ := e
      cases b
      · simp at hflag
      · have hco : contribOne (true, r) = r := by
          simp [contribOne]
        rw [hco]
        exact vecAdd_zero_right r n (hlen (true, r) (List.mem_cons_self _ es))
    · have hmm : true ∈ es.map (fun e => e.1) :=
        hflag ▸ List.mem_map_of_mem (fun e => e.1) hmem
      have he0 : e0.1 = false := by
        cases h0 : e0.1
        · rfl
        · exfalso
          have hpos : 0 < (es.map (fun e => e.1)).count true :=
            List.count_pos_iff.mpr hmm
          simp only [List.map_cons, List.count_cons, h0] at hone
          simp at hone
          omega
      have htail : (es.map (fun e => e.1)).count true = 1 := by
        simp only [List.map_cons, List.count_cons, he0] at hone
        simpa using hone
      rw [List.map_cons, vecSum_cons,
        ih (fun x hx => hlen x (List.mem_cons_of_mem e0 hx)) htail e hmem hflag]
      obtain ⟨b0, r0⟩ := e0
      cases b0
      · have hco : contribOne (false, r0) = r0.map (fun _ => (0 : ℚ)) := by
          simp [contribOne]
        rw [hco]
        exact vecAdd_zero_left r0 e.2
          ((hlen (false, r0) (List.mem_cons_self _ es)).trans
            (hlen e (List.mem_cons_of_mem _ hmem)).symm)
      · simp at he0

/-- Unpacking the reduced vector returns, at every well position with a
unique owner, exactly the owner's original rate vector (any extra payload
after the rate blocks is ignored by the rate part). -/
theorem unpackWr_column (shape : List Nat) :
    ∀ (wrs : List (List (Bool × List ℚ))) (wr0 : List (Bool × List ℚ)) (extra : List ℚ),
      (∀ l ∈ wrs, l.map (fun e => e.2.length) = shape) →
      wr0.map (fun e => e.2.length) = shape →
      ∀ k, k < shape.length →
        (wrs.map (fun l => (l.getD k (false, [])).1)).count true = 1 →
        ∀ o ∈ wrs, (o.getD k (false, [])).1 = true →
          ((unpackWr wr0 (vecSum (wrs.map (fun l => l.flatMap contribOne)) shape.sum ++
              extra)).getD k (false, [])).2 = (o.getD k (false, [])).2 := by
  induction shape with
  | nil =>
    intro wrs wr0 extra hshape h0 k hk
    exact absurd hk (Nat.not_lt_zero k)
  | cons n shape2 ih =>
    intro wrs wr0 extra hshape h0 k hk hone o ho hflag
    cases wr0 with
    | nil => simp at h0
    | cons e0 wr0x =>
      simp only [List.map_cons, List.cons.injEq] at h0
      obtain ⟨he0, h0x⟩ := h0
      have hsplit : wrs.map (fun l => l.flatMap contribOne) =
          wrs.map (fun l => contribOne (l.getD 0 (false, [])) ++
            (l.tail).flatMap contribOne) := by
        apply List.map_congr_left
        intro l hl
        have hls := hshape l hl
        cases l with
        | nil => simp at hls
        | cons x xs => rfl
      have hheadlen : ∀ l ∈ wrs, (contribOne (l.getD 0 (false, []))).length = n := by
        intro l hl
        have hls := hshape l hl
        cases l with
        | nil => simp at hls
        | cons x xs =>
          simp only [List.map_cons, List.cons.injEq] at hls
          simpa [contribOne] using hls.1
      have htaillen : ∀ l ∈ wrs, ((l.tail).flatMap contribOne).length = shape2.sum := by
        intro l hl
        have hls := hshape l hl
        cases l with
        | nil => simp at hls
        | cons x xs =>
          simp only [List.map_cons, List.cons.injEq] at hls
          rw [List.tail_cons, flatMap_contribOne_length, hls.2]
      have hvec : vecSum (wrs.map (fun l => l.flatMap contribOne)) ((n :: shape2).sum) =
          vecSum (wrs.map (fun l => contribOne (l.getD 0 (false, [])))) n ++
          vecSum (wrs.map (fun l => (l.tail).flatMap contribOne)) shape2.sum := by
        rw [hsplit]
        have hs : (n :: shape2).sum = n + shape2.sum := by simp
        rw [hs]
        exact vecSum_map_append wrs _ _ n shape2.sum hheadlen htaillen
      have hHlen : (vecSum (wrs.map (fun l =>
          contribOne (l.getD 0 (false, [])))) n).length = n := by
        apply vecSum_length
        intro v hv
        obtain ⟨l, hl, rfl⟩ := List.mem_map.mp hv
        exact hheadlen l hl
      rw [hvec, List.append_assoc]
      simp only [unpackWr]
      have htake : ((vecSum (wrs.map (fun l => contribOne (l.getD 0 (false, [])))) n) ++
          (vecSum (wrs.map (fun l => (l.tail).flatMap contribOne)) shape2.sum ++
            extra)).take e0.2.length =
          vecSum (wrs.map (fun l => contribOne (l.getD 0 (false, [])))) n := by
        rw [he0]
        exact List.take_left' hHlen
      have hdrop : ((vecSum (wrs.map (fun l => contribOne (l.getD 0 (false, [])))) n) ++
          (vecSum (wrs.map (fun l => (l.tail).flatMap contribOne)) shape2.sum ++
            extra)).drop e0.2.length =
          vecSum (wrs.map (fun l => (l.tail).flatMap contribOne)) shape2.sum ++ extra := by
        rw [he0]
        exact List.drop_left' hHlen
      rw [htake, hdrop]
      cases k with
      | zero =>
        have hH : vecSum ((wrs.map (fun l => l.getD 0 (false, []))).map contribOne) n =
            (o.getD 0 (false, [])).2 := by
          apply vecSum_contrib_owner _ n ?hlen ?hcnt _ (List.mem_map_of_mem _ ho) hflag
          case hlen =>
            intro e hee
            obtain ⟨l, hl, rfl⟩ := List.mem_map.mp hee
            have hls := hshape l hl
            cases l with
            | nil => simp at hls
            | cons x xs =>
              simp only [List.map_cons, List.cons.injEq] at hls
              simpa using hls.1
          case hcnt =>
            rw [List.map_map]
            exact hone
        simp only [List.getD_cons_zero]
        rw [← hH, List.map_map]
        rfl
      | succ k2 =>
        simp only [List.getD_cons_succ]
        have hshape2 : ∀ l ∈ wrs.map (fun l => l.tail),
            l.map (fun e => e.2.length) = shape2 := by
          intro l hl
          obtain ⟨m, hm, rfl⟩ := List.mem_map.mp hl
          have hls := hshape m hm
          cases m with
          | nil => simp at hls
          | cons x xs =>
            simp only [List.map_cons, List.cons.injEq] at hls
            simpa using hls.2
        have hfun : (fun (l : List (Bool × List ℚ)) => (l.getD (k2 + 1) (false, [])).1) =
            (fun l => (l.tail.getD k2 (false, [])).1) := by
          funext l
          rw [getD_succ_tail]
        have hcnt2 : ((wrs.map (fun l => l.tail)).map
            (fun l => (l.getD k2 (false, [])).1)).count true = 1 := by
          rw [List.map_map]
          rw [hfun] at hone
          exact hone
        have hflag2 : ((o.tail).getD k2 (false, [])).1 = true := by
          rw [← getD_succ_tail]
          exact hflag
        have happ := ih (wrs.map (fun l => l.tail)) wr0x extra hshape2 h0x k2
          (Nat.lt_of_succ_lt_succ hk) hcnt2 (o.tail)
          (List.mem_map_of_mem _ ho) hflag2
        rw [List.map_map] at happ
        have hmm : (wrs.map ((fun l => l.flatMap contribOne) ∘ fun l => l.tail)) =
            wrs.map (fun l => (l.tail).flatMap contribOne) := rfl
        rw [hmm] at happ
        rw [happ, getD_succ_tail]

/-- C7: with exactly one owning process contributing each well's rates and
every other process contributing zeros, the single sum-reduction of
`communicateGroupRates` leaves every process holding, for each well,
exactly the owner's original rate values, and the ALQ payload packed
alongside is reduced (to the elementwise sum of all contributions) in the
same call. -/
theorem communicateGroupRates_owner_reduction (procs : List ProcState)
    (shape : List Nat) (alqLen : Nat)
    (hshape : ∀ p ∈ procs, p.well_rates.map (fun e => e.2.length) = shape)
    (halq : ∀ p ∈ procs, p.alq.length = alqLen)
    (hone : ∀ k, k < shape.length →
      (procs.map (fun p => (p.well_rates.getD k (false, [])).1)).count true = 1) :
    ∀ q ∈ communicateGroupRates procs,
      (∀ k, k < shape.length → ∀ o ∈ procs,
        (o.well_rates.getD k (false, [])).1 = true →
          (q.well_rates.getD k (false, [])).2 = (o.well_rates.getD k (false, [])).2) ∧
      q.alq = vecSum (procs.map (fun p => p.alq)) alqLen := by
  intro q hq
  obtain ⟨p, hp, rfl⟩ := List.mem_map.mp hq
  have hplen : (packData p).length = shape.sum + alqLen := by
    rw [packData, List.length_append, flatMap_contribOne_length, hshape p hp, halq p hp]
  have hmapp : procs.map packData =
      procs.map (fun r => (r.well_rates.flatMap contribOne) ++ r.alq) := rfl
  have hdata : vecSum (procs.map packData) (packData p).length =
      vecSum (procs.map (fun r => r.well_rates.flatMap contribOne)) shape.sum ++
      vecSum (procs.map (fun r => r.alq)) alqLen := by
    rw [hplen, hmapp]
    exact vecSum_map_append procs _ _ shape.sum alqLen
      (fun r hr => by rw [flatMap_contribOne_length, hshape r hr])
      (fun r hr => halq r hr)
  have hWlen : (vecSum (procs.map (fun r =>
      r.well_rates.flatMap contribOne)) shape.sum).length = shape.sum := by
    apply vecSum_length
    intro v hv
    obtain ⟨r, hr, rfl⟩ := List.mem_map.mp hv
    rw [flatMap_contribOne_length, hshape r hr]
  have hAlen : (vecSum (procs.map (fun r => r.alq)) alqLen).length = alqLen := by
    apply vecSum_length
    intro v hv
    obtain ⟨r, hr, rfl⟩ := List.mem_map.mp hv
    exact halq r hr
  constructor
  · intro k hk o ho hflag
    simp only [unpackProc]
    rw [hdata]
    have hcol := unpackWr_column shape (procs.map (fun r => r.well_rates))
      p.well_rates (vecSum (procs.map (fun r => r.alq)) alqLen)
      (by
        intro l hl
        obtain ⟨r, hr, rfl⟩ := List.mem_map.mp hl
        exact hshape r hr)
      (hshape p hp) k hk
      (by
        rw [List.map_map]
        exact hone k hk)
      o.well_rates (List.mem_map_of_mem _ ho) hflag
    rw [List.map_map] at hcol
    exact hcol
  · simp only [unpackProc]
    rw [hdata]
    have hwr : wrLen p.well_rates = shape.sum := by
      rw [wrLen, hshape p hp]
    rw [hwr, List.drop_left' hWlen]
    have hAl2 : (vecSum (procs.map (fun r => r.alq)) alqLen).length = p.alq.length := by
      rw [hAlen, halq p hp]
    rw [← hAl2, List.take_length]

instance : Inhabited ProcState := ⟨{}⟩

/-- Process 1 for the C7 witness: owns well 0 with rates [1, 2]; its entry
for well 1 holds junk that must not survive the reduction. -/
def procW1 : ProcState := { well_rates := [(true, [1, 2]), (false, [7, 8])], alq := [5] }

/-- Process 2 for the C7 witness: owns well 1 with rates [3, 4]. -/
def procW2 : ProcState := { well_rates := [(false, [0, 0]), (true, [3, 4])], alq := [6] }

/-- Witness for C7: after the reduction both processes hold the owners'
original rates for both wells, and the ALQ payload is the summed
contribution. -/
theorem communicateGroupRates_owner_reduction_witness :
    (((communicateGroupRates [procW1, procW2]).getD 0 default).well_rates.getD 0
        (false, [])).2 = [1, 2] ∧
    (((communicateGroupRates [procW1, procW2]).getD 0 default).well_rates.getD 1
        (false, [])).2 = [3, 4] ∧
    (((communicateGroupRates [procW1, procW2]).getD 1 default).well_rates.getD 0
        (false, [])).2 = [1, 2] ∧
    ((communicateGroupRates [procW1, procW2]).getD 1 default).alq =
      vecSum [[5], [6]] 1 := by
  have hmain := communicateGroupRates_owner_reduction [procW1, procW2] [2, 2] 1
    (by decide) (by decide) (by decide)
  have hm1 : (communicateGroupRates [procW1, procW2]).getD 0 default ∈
      communicateGroupRates [procW1, procW2] := List.mem_cons_self _ _
  have hm2 : (communicateGroupRates [procW1, procW2]).getD 1 default ∈
      communicateGroupRates [procW1, procW2] :=
    List.mem_cons_of_mem _ (List.mem_cons_self _ _)
  obtain ⟨hr1, ha1⟩ := hmain _ hm1
  obtain ⟨hr2, ha2⟩ := hmain _ hm2
  exact ⟨hr1 0 (by decide) procW1 (List.mem_cons_self _ _) (by decide),
    hr1 1 (by decide) procW2 (List.mem_cons_of_mem _ (List.mem_cons_self _ _)) (by decide),
    hr2 0 (by decide) procW1 (List.mem_cons_self _ _) (by decide),
    ha2⟩

/-! Apparatus for the segment-rate aggregation proofs. -/

/-- Two phase-major slots coincide only for the same segment and phase. -/
theorem slot_inj (np s p t q : Nat) (hp : p < np) (hq : q < np)
    (h : np * s + p = np * t + q) : s = t ∧ p = q := by
  have hst : s = t := by
    rcases Nat.lt_trichotomy s t with hlt | heq | hgt
    · exfalso
      have h1 : np * (s + 1) = np * s + np := by ring
      have h2 : np * (s + 1) ≤ np * t := Nat.mul_le_mul_left np hlt
      omega
    · exact heq
    · exfalso
      have h1 : np * (t + 1) = np * t + np := by ring
      have h2 : np * (t + 1) ≤ np * s := Nat.mul_le_mul_left np hgt
      omega
  subst hst
  omega

theorem lresize_self (l : List ℚ) (n : Nat) (h : l.length = n) :
    lresize l n = l := by
  subst h
  simp [lresize]

theorem addAt_length (l : List ℚ) (i : Nat) (v : ℚ) :
    (addAt l i v).length = l.length := by
  simp [addAt]

theorem qget_addAt_self (l : List ℚ) (i : Nat) (v : ℚ) (h : i < l.length) :
    qget (addAt l i v) i = qget l i + v := by
  simp only [addAt, qget]
  exact getD_set_self l i (l.getD i 0 + v) 0 h

theorem qget_addAt_other (l : List ℚ) (i j : Nat) (v : ℚ) (h : i ≠ j) :
    qget (addAt l i v) j = qget l j := by
  simp only [addAt, qget]
  exact getD_set_ne l i j (l.getD i 0 + v) 0 h

theorem flatMap_congr_mem {α β : Type} (l : List α) (f g : α → List β)
    (h : ∀ a ∈ l, f a = g a) : l.flatMap f = l.flatMap g := by
  induction l with
  | nil => rfl
  | cons a t ih =>
    simp only [List.flatMap_cons]
    rw [h a (List.mem_cons_self a t), ih (fun x hx => h x (List.mem_cons_of_mem a hx))]

/-- Whether the recursion of `calculateSegmentRates` starting at a segment
finishes within the given fuel. -/
def segComplete (inlets : List (List Nat)) : Nat → Nat → Prop
  | 0, _ => False
  | fuel + 1, seg => ∀ i ∈ inlets.getD seg [], segComplete inlets fuel i

/-- The preorder list of segments visited by the recursion. -/
def segVisited (inlets : List (List Nat)) : Nat → Nat → List Nat
  | 0, _ => []
  | fuel + 1, seg => seg :: (inlets.getD seg []).flatMap (segVisited inlets fuel)

/-- Per-phase sum of the rates of the perforations attached to a segment. -/
def perfSum (perfs : List (List Nat)) (perfRates : List ℚ) (np p seg : Nat) : ℚ :=
  ((perfs.getD seg []).map (fun perf => qget perfRates (np * perf + p))).sum

/-- Amount accumulated into a segment's slot by a complete traversal of
its subtree, relative to the array state `sr` at the start of the
traversal. -/
def accSum (inlets perfs : List (List Nat)) (perfRates : List ℚ) (np p : Nat)
    (sr : List ℚ) : Nat → Nat → ℚ
  | 0, _ => 0
  | fuel + 1, seg => perfSum perfs perfRates np p seg +
      ((inlets.getD seg []).map
        (fun i => qget sr (np * i + p) +
          accSum inlets perfs perfRates np p sr fuel i)).sum

theorem segComplete_mono (inlets : List (List Nat)) :
    ∀ f g s, f ≤ g → segComplete inlets f s → segComplete inlets g s := by
  intro f
  induction f with
  | zero => intro g s _ h; exact absurd h (by simp [segComplete])
  | succ f ih =>
    intro g s hfg h
    cases g with
    | zero => omega
    | succ g =>
      intro i hi
      exact ih g i (Nat.le_of_succ_le_succ hfg) (h i hi)

theorem segComplete_of_mem_visited (inlets : List (List Nat)) :
    ∀ f i s, segComplete inlets f i → s ∈ segVisited inlets f i →
      segComplete inlets f s := by
  intro f
  induction f with
  | zero => intro i s _ hs; simp [segVisited] at hs
  | succ f ih =>
    intro i s hc hs
    simp only [segVisited, List.mem_cons, List.mem_flatMap] at hs
    rcases hs with rfl | ⟨j, hj, hsj⟩
    · exact hc
    · exact segComplete_mono inlets f (f + 1) s (Nat.le_succ f)
        (ih j s (hc j hj) hsj)

theorem segVisited_stable (inlets : List (List Nat)) :
    ∀ f g s, segComplete inlets f s → segComplete inlets g s →
      segVisited inlets f s = segVisited inlets g s := by
  intro f
  induction f with
  | zero => intro g s h; exact absurd h (by simp [segComplete])
  | succ f ih =>
    intro g s hf hg
    cases g with
    | zero => exact absurd hg (by simp [segComplete])
    | succ g =>
      simp only [segVisited]
      congr 1
      apply flatMap_congr_mem
      intro i hi
      exact ih g i (hf i hi) (hg i hi)

theorem accSum_stable (inlets perfs : List (List Nat)) (perfRates : List ℚ)
    (np p : Nat) (sr : List ℚ) :
    ∀ f g s, segComplete inlets f s → segComplete inlets g s →
      accSum inlets perfs perfRates np p sr f s =
        accSum inlets perfs perfRates np p sr g s := by
  intro f
  induction f with
  | zero => intro g s h; exact absurd h (by simp [segComplete])
  | succ f ih =>
    intro g s hf hg
    cases g with
    | zero => exact absurd hg (by simp [segComplete])
    | succ g =>
      simp only [accSum]
      congr 1
      apply congrArg List.sum
      apply List.map_congr_left
      intro i hi
      rw [ih g i (hf i hi) (hg i hi)]

/-! Behaviour of the accumulation loops on slots. -/

theorem foldl_addAt_length (P : List Nat) (np seg : Nat) (v : Nat → ℚ) :
    ∀ sr : List ℚ,
      (P.foldl (fun a q => addAt a (np * seg + q) (v q)) sr).length = sr.length := by
  induction P with
  | nil => intro sr; rfl
  | cons r P ih =>
    intro sr
    rw [List.foldl_cons, ih, addAt_length]

theorem foldl_addAt_other (P : List Nat) (np seg : Nat) (v : Nat → ℚ) (j : Nat)
    (hj : ∀ q ∈ P, j ≠ np * seg + q) :
    ∀ sr : List ℚ,
      qget (P.foldl (fun a q => addAt a (np * seg + q) (v q)) sr) j = qget sr j := by
  induction P with
  | nil => intro sr; rfl
  | cons r P ih =>
    intro sr
    rw [List.foldl_cons,
      ih (fun q hq => hj q (List.mem_cons_of_mem r hq)),
      qget_addAt_other _ _ _ _ (fun e => hj r (List.mem_cons_self r P) e.symm)]

theorem foldl_addAt_self (P : List Nat) (np seg : Nat) (v : Nat → ℚ)
    (hnd : P.Nodup) :
    ∀ (sr : List ℚ) (q : Nat), q ∈ P → np * seg + q < sr.length →
      qget (P.foldl (fun a r => addAt a (np * seg + r) (v r)) sr) (np * seg + q) =
        qget sr (np * seg + q) + v q := by
  induction P with
  | nil =>
    intro sr q hq
    simp at hq
  | cons r P ih =>
    intro sr q hq hb
    rw [List.foldl_cons]
    rcases List.mem_cons.mp hq with rfl | hmem
    · have hnotin : q ∉ P := (List.nodup_cons.mp hnd).1
      rw [foldl_addAt_other P np seg v _
          (fun q2 hq2 e => hnotin (by
            have : q = q2 := by omega
            exact this ▸ hq2)),
        qget_addAt_self _ _ _ hb]
    · have hrq : r ≠ q := by
        intro e
        exact (List.nodup_cons.mp hnd).1 (e ▸ hmem)
      rw [ih (List.nodup_cons.mp hnd).2 _ q hmem (by rw [addAt_length]; exact hb),
        qget_addAt_other _ _ _ _ (by intro e; exact hrq (by omega))]

theorem addInlet_fold_other (P : List Nat) (np seg i j : Nat)
    (hj : ∀ q ∈ P, j ≠ np * seg + q) :
    ∀ a : List ℚ,
      qget (P.foldl (fun b q => addAt b (np * seg + q) (qget b (np * i + q))) a) j =
        qget a j := by
  induction P with
  | nil => intro a; rfl
  | cons r P ih =>
    intro a
    rw [List.foldl_cons,
      ih (fun q hq => hj q (List.mem_cons_of_mem r hq)),
      qget_addAt_other _ _ _ _ (fun e => hj r (List.mem_cons_self r P) e.symm)]

theorem addInlet_fold_length (P : List Nat) (np seg i : Nat) :
    ∀ a : List ℚ,
      (P.foldl (fun b q => addAt b (np * seg + q) (qget b (np * i + q))) a).length =
        a.length := by
  induction P with
  | nil => intro a; rfl
  | cons r P ih =>
    intro a
    rw [List.foldl_cons, ih, addAt_length]

theorem addInlet_fold_self (P : List Nat) (np seg i : Nat) (hne : seg ≠ i)
    (hnd : P.Nodup) (hmemP : ∀ q ∈ P, q < np) :
    ∀ (a : List ℚ) (q : Nat), q ∈ P → np * seg + q < a.length →
      qget (P.foldl (fun b r => addAt b (np * seg + r) (qget b (np * i + r))) a)
          (np * seg + q) =
        qget a (np * seg + q) + qget a (np * i + q) := by
  induction P with
  | nil =>
    intro a q hq
    simp at hq
  | cons r P ih =>
    intro a q hq hb
    rw [List.foldl_cons]
    rcases List.mem_cons.mp hq with rfl | hmem
    · have hnotin : q ∉ P := (List.nodup_cons.mp hnd).1
      rw [addInlet_fold_other P np seg i _
          (fun q2 hq2 e => hnotin (by
            have : q = q2 := by omega
            exact this ▸ hq2)),
        qget_addAt_self _ _ _ hb]
    · have hrq : r ≠ q := by
        intro e
        exact (List.nodup_cons.mp hnd).1 (e ▸ hmem)
      have hq2 : qget (addAt a (np * seg + r) (qget a (np * i + r))) (np * seg + q) =
          qget a (np * seg + q) :=
        qget_addAt_other _ _ _ _ (by intro e; exact hrq (by omega))
      have hq3 : qget (addAt a (np * seg + r) (qget a (np * i + r))) (np * i + q) =
          qget a (np * i + q) := by
        apply qget_addAt_other
        intro e
        have hr : r < np := hmemP r (List.mem_cons_self r P)
        have hqn : q < np := hmemP q (List.mem_cons_of_mem r hmem)
        exact hne (slot_inj np seg r i q hr hqn e).1
      rw [ih (List.nodup_cons.mp hnd).2
          (fun x hx => hmemP x (List.mem_cons_of_mem r hx)) _ q hmem
          (by rw [addAt_length]; exact hb),
        hq2, hq3]

theorem addPerf_length (np seg : Nat) (perfRates sr : List ℚ) (perf : Nat) :
    (addPerf np seg perfRates sr perf).length = sr.length :=
  foldl_addAt_length (List.range np) np seg _ sr

theorem addPerf_other (np seg : Nat) (perfRates sr : List ℚ) (perf j : Nat)
    (hj : ∀ p, p < np → j ≠ np * seg + p) :
    qget (addPerf np seg perfRates sr perf) j = qget sr j :=
  foldl_addAt_other (List.range np) np seg _ j
    (fun q hq => hj q (List.mem_range.mp hq)) sr

theorem addPerf_self (np seg : Nat) (perfRates sr : List ℚ) (perf p : Nat)
    (hp : p < np) (hb : np * seg + p < sr.length) :
    qget (addPerf np seg perfRates sr perf) (np * seg + p) =
      qget sr (np * seg + p) + qget perfRates (np * perf + p) :=
  foldl_addAt_self (List.range np) np seg _ (List.nodup_range np) sr p
    (List.mem_range.mpr hp) hb

theorem perfFold_length (L : List Nat) (np seg : Nat) (perfRates : List ℚ) :
    ∀ sr : List ℚ,
      (L.foldl (fun a perf => addPerf np seg perfRates a perf) sr).length =
        sr.length := by
  induction L with
  | nil => intro sr; rfl
  | cons x L ih =>
    intro sr
    rw [List.foldl_cons, ih, addPerf_length]

theorem perfFold_other (L : List Nat) (np seg : Nat) (perfRates : List ℚ) (j : Nat)
    (hj : ∀ p, p < np → j ≠ np * seg + p) :
    ∀ sr : List ℚ,
      qget (L.foldl (fun a perf => addPerf np seg perfRates a perf) sr) j =
        qget sr j := by
  induction L with
  | nil => intro sr; rfl
  | cons x L ih =>
    intro sr
    rw [List.foldl_cons, ih, addPerf_other np seg perfRates sr x j hj]

theorem perfFold_self (L : List Nat) (np seg : Nat) (perfRates : List ℚ) (p : Nat)
    (hp : p < np) :
    ∀ sr : List ℚ, np * seg + p < sr.length →
      qget (L.foldl (fun a perf => addPerf np seg perfRates a perf) sr)
          (np * seg + p) =
        qget sr (np * seg + p) +
          (L.map (fun perf => qget perfRates (np * perf + p))).sum := by
  induction L with
  | nil =>
    intro sr _
    simp
  | cons x L ih =>
    intro sr hb
    rw [List.foldl_cons, ih _ (by rw [addPerf_length]; exact hb),
      addPerf_self np seg perfRates sr x p hp hb, List.map_cons, List.sum_cons]
    ring

theorem addInlet_len (np seg i : Nat) (sr : List ℚ) :
    (addInlet np seg i sr).length = sr.length :=
  addInlet_fold_length (List.range np) np seg i sr

theorem addInlet_unchanged (np seg i : Nat) (sr : List ℚ) (j : Nat)
    (hj : ∀ p, p < np → j ≠ np * seg + p) :
    qget (addInlet np seg i sr) j = qget sr j :=
  addInlet_fold_other (List.range np) np seg i j
    (fun q hq => hj q (List.mem_range.mp hq)) sr

theorem addInlet_get (np seg i : Nat) (hne : seg ≠ i) (sr : List ℚ) (p : Nat)
    (hp : p < np) (hb : np * seg + p < sr.length) :
    qget (addInlet np seg i sr) (np * seg + p) =
      qget sr (np * seg + p) + qget sr (np * i + p) :=
  addInlet_fold_self (List.range np) np seg i hne (List.nodup_range np)
    (fun q hq => List.mem_range.mp hq) sr p (List.mem_range.mpr hp) hb

/-- Success of the recursion implies the fuel was sufficient on every
visited segment. -/
theorem calc_complete_pair (inlets perfs : List (List Nat)) (perfRates : List ℚ)
    (np : Nat) :
    ∀ fuel : Nat,
      (∀ seg sr out,
        calcSegAux inlets perfs perfRates np fuel seg sr = some out →
          segComplete inlets fuel seg) ∧
      (∀ seg is sr out,
        calcInletLoop inlets perfs perfRates np fuel seg is sr = some out →
          ∀ i ∈ is, segComplete inlets fuel i) := by
  intro fuel
  induction fuel with
  | zero =>
    constructor
    · intro seg sr out h
      simp [calcSegAux] at h
    · intro seg is sr out h i hi
      cases is with
      | nil => simp at hi
      | cons i0 rest => simp [calcInletLoop, calcSegAux] at h
  | succ fuel ih =>
    have hseg : ∀ seg sr out,
        calcSegAux inlets perfs perfRates np (fuel + 1) seg sr = some out →
          segComplete inlets (fuel + 1) seg := by
      intro seg sr out h
      simp only [calcSegAux] at h
      intro i hi
      exact ih.2 seg (inlets.getD seg []) _ out h i hi
    refine ⟨hseg, ?_⟩
    intro seg is
    induction is with
    | nil =>
      intro sr out h i hi
      simp at hi
    | cons i0 rest ihl =>
      intro sr out h i hi
      simp only [calcInletLoop] at h
      cases hc : calcSegAux inlets perfs perfRates np (fuel + 1) i0 sr with
      | none => rw [hc] at h; simp at h
      | some sr2 =>
        rw [hc] at h
        rcases List.mem_cons.mp hi with rfl | hmem
        · exact hseg _ sr sr2 hc
        · exact ihl _ out h i hmem

theorem slot_lt (np s p n : Nat) (hs : s < n) (hp : p < np) :
    np * s + p < np * n := by
  have h1 : np * (s + 1) = np * s + np := by ring
  have h2 : np * (s + 1) ≤ np * n := Nat.mul_le_mul_left np hs
  omega

theorem mem_visited_self (inlets : List (List Nat)) (f s : Nat)
    (h : segComplete inlets f s) : s ∈ segVisited inlets f s := by
  cases f with
  | zero => exact absurd h (by simp [segComplete])
  | succ f => exact List.mem_cons_self s _

theorem visited_closed (inlets : List (List Nat)) :
    ∀ f i s, segComplete inlets f i → s ∈ segVisited inlets f i →
      ∀ t ∈ segVisited inlets f s, t ∈ segVisited inlets f i := by
  intro f
  induction f with
  | zero => intro i s _ hs; simp [segVisited] at hs
  | succ f ih =>
    intro i s hc hs t ht
    simp only [segVisited, List.mem_cons, List.mem_flatMap] at hs
    rcases hs with rfl | ⟨j, hj, hsj⟩
    · exact ht
    · have hcj : segComplete inlets f j := hc j hj
      have hcs : segComplete inlets f s := segComplete_of_mem_visited inlets f j s hcj hsj
      have hstab : segVisited inlets (f + 1) s = segVisited inlets f s :=
        segVisited_stable inlets (f + 1) f s
          (segComplete_mono inlets f (f + 1) s (Nat.le_succ f) hcs) hcs
      rw [hstab] at ht
      have htj : t ∈ segVisited inlets f j := ih j s hcj hsj t ht
      simp only [segVisited, List.mem_cons, List.mem_flatMap]
      exact Or.inr ⟨j, hj, htj⟩

theorem accSum_congr (inlets perfs : List (List Nat)) (perfRates : List ℚ)
    (np p : Nat) (sr1 sr2 : List ℚ) :
    ∀ f s, segComplete inlets f s →
      (∀ i ∈ segVisited inlets f s, qget sr1 (np * i + p) = qget sr2 (np * i + p)) →
      accSum inlets perfs perfRates np p sr1 f s =
        accSum inlets perfs perfRates np p sr2 f s := by
  intro f
  induction f with
  | zero => intro s h; exact absurd h (by simp [segComplete])
  | succ f ih =>
    intro s hc hag
    simp only [accSum]
    congr 1
    apply congrArg List.sum
    apply List.map_congr_left
    intro i hi
    have hci : segComplete inlets f i := hc i hi
    have hmem : i ∈ segVisited inlets (f + 1) s := by
      simp only [segVisited, List.mem_cons, List.mem_flatMap]
      exact Or.inr ⟨i, hi, mem_visited_self inlets f i hci⟩
    rw [hag i hmem]
    congr 1
    apply ih i hci
    intro t ht
    apply hag
    simp only [segVisited, List.mem_cons, List.mem_flatMap]
    exact Or.inr ⟨i, hi, ht⟩

/-- Induction invariant for `calcSegAux`: on success with a full-sized
array and a duplicate-free visited set, the array keeps its length, slots
outside the visited set keep their values, and every visited segment's slot
grows by exactly its subtree accumulation. -/
def SegSpec (inlets perfs : List (List Nat)) (perfRates : List ℚ) (np fuel : Nat) :
    Prop :=
  ∀ seg sr out,
    calcSegAux inlets perfs perfRates np fuel seg sr = some out →
    sr.length = np * inlets.length →
    (segVisited inlets fuel seg).Nodup →
    (∀ s ∈ segVisited inlets fuel seg, s < inlets.length) →
      out.length = sr.length ∧
      (∀ j, (∀ s ∈ segVisited inlets fuel seg, ∀ p, p < np → j ≠ np * s + p) →
        qget out j = qget sr j) ∧
      (∀ s ∈ segVisited inlets fuel seg, ∀ p, p < np →
        qget out (np * s + p) = qget sr (np * s + p) +
          accSum inlets perfs perfRates np p sr fuel s)

/-- Induction invariant for the inlet loop of `calcSegAux`. -/
def LoopSpec (inlets perfs : List (List Nat)) (perfRates : List ℚ) (np fuel : Nat) :
    Prop :=
  ∀ seg is sr out,
    calcInletLoop inlets perfs perfRates np fuel seg is sr = some out →
    sr.length = np * inlets.length →
    (seg :: is.flatMap (segVisited inlets fuel)).Nodup →
    (∀ s ∈ is.flatMap (segVisited inlets fuel), s < inlets.length) →
    seg < inlets.length →
      out.length = sr.length ∧
      (∀ j, (∀ s ∈ seg :: is.flatMap (segVisited inlets fuel), ∀ p, p < np →
          j ≠ np * s + p) →
        qget out j = qget sr j) ∧
      (∀ s ∈ is.flatMap (segVisited inlets fuel), ∀ p, p < np →
        qget out (np * s + p) = qget sr (np * s + p) +
          accSum inlets perfs perfRates np p sr fuel s) ∧
      (∀ p, p < np →
        qget out (np * seg + p) = qget sr (np * seg + p) +
          (is.map (fun i => qget sr (np * i + p) +
            accSum inlets perfs perfRates np p sr fuel i)).sum)

theorem segSpec_zero (inlets perfs : List (List Nat)) (perfRates : List ℚ)
    (np : Nat) : SegSpec inlets perfs perfRates np 0 := by
  intro seg sr out h
  simp [calcSegAux] at h

theorem loopSpec_of_segSpec (inlets perfs : List (List Nat)) (perfRates : List ℚ)
    (np fuel : Nat) (hseg : SegSpec inlets perfs perfRates np fuel) :
    LoopSpec inlets perfs perfRates np fuel := by
  intro seg is
  induction is with
  | nil =>
    intro sr out h hlen hnd hbnd hsegb
    have hout : sr = out := by simpa [calcInletLoop] using h
    subst hout
    refine ⟨rfl, fun j _ => rfl, ?_, ?_⟩
    · intro s hs
      simp at hs
    · intro p hp
      simp
  | cons i0 rest ihl =>
    intro sr out h hlen hnd hbnd hsegb
    simp only [calcInletLoop] at h
    cases hc : calcSegAux inlets perfs perfRates np fuel i0 sr with
    | none => rw [hc] at h; simp at h
    | some sr2 =>
      rw [hc] at h
      have h2 : calcInletLoop inlets perfs perfRates np fuel seg rest
          (addInlet np seg i0 sr2) = some out := h
      rw [List.flatMap_cons] at hnd hbnd
      obtain ⟨hsegnot, hndtail⟩ := List.nodup_cons.mp hnd
      have hsegnotA : seg ∉ segVisited inlets fuel i0 :=
        fun hx => hsegnot (List.mem_append.mpr (Or.inl hx))
      have hsegnotB : seg ∉ rest.flatMap (segVisited inlets fuel) :=
        fun hx => hsegnot (List.mem_append.mpr (Or.inr hx))
      obtain ⟨hndA, hndB, hdisj⟩ := List.nodup_append.mp hndtail
      have hcomp0 : segComplete inlets fuel i0 :=
        (calc_complete_pair inlets perfs perfRates np fuel).1 i0 sr sr2 hc
      have hmem0 : i0 ∈ segVisited inlets fuel i0 := mem_visited_self inlets fuel i0 hcomp0
      have hne0 : seg ≠ i0 := fun e => hsegnotA (e ▸ hmem0)
      have hbndA : ∀ s ∈ segVisited inlets fuel i0, s < inlets.length :=
        fun s hs => hbnd s (List.mem_append.mpr (Or.inl hs))
      have hbndB : ∀ s ∈ rest.flatMap (segVisited inlets fuel), s < inlets.length :=
        fun s hs => hbnd s (List.mem_append.mpr (Or.inr hs))
      obtain ⟨ha1, hb1, hc1⟩ := hseg i0 sr sr2 hc hlen hndA hbndA
      have hlen2 : sr2.length = np * inlets.length := ha1.trans hlen
      have hlen3 : (addInlet np seg i0 sr2).length = sr.length :=
        (addInlet_len np seg i0 sr2).trans ha1
      have hndrest : (seg :: rest.flatMap (segVisited inlets fuel)).Nodup :=
        List.nodup_cons.mpr ⟨hsegnotB, hndB⟩
      obtain ⟨ha3, hb3, hc3, hd3⟩ := ihl (addInlet np seg i0 sr2) out h2
        ((addInlet_len np seg i0 sr2).trans hlen2) hndrest hbndB hsegb
      have hcomprest : ∀ i ∈ rest, segComplete inlets fuel i :=
        (calc_complete_pair inlets perfs perfRates np fuel).2 seg rest
          (addInlet np seg i0 sr2) out h2
      have hslot_ne : ∀ s t : Nat, s ≠ t → ∀ p, p < np →
          (∀ p2, p2 < np → np * s + p ≠ np * t + p2) := by
        intro s t hst p hp p2 hp2 he
        exact hst (slot_inj np s p t p2 hp hp2 he).1
      have hAi_other : ∀ s, s ≠ seg → ∀ p, p < np →
          qget (addInlet np seg i0 sr2) (np * s + p) = qget sr2 (np * s + p) :=
        fun s hs p hp => addInlet_unchanged np seg i0 sr2 (np * s + p)
          (hslot_ne s seg hs p hp)
      have hBnotA : ∀ s ∈ rest.flatMap (segVisited inlets fuel),
          s ∉ segVisited inlets fuel i0 := fun s hs hx => hdisj hx hs
      have hsr2_other : ∀ s, s ∉ segVisited inlets fuel i0 → ∀ p, p < np →
          qget sr2 (np * s + p) = qget sr (np * s + p) := by
        intro s hs p hp
        apply hb1
        intro t ht p2 hp2 he
        exact hs ((slot_inj np s p t p2 hp hp2 he).1 ▸ ht)
      refine ⟨ha3.trans hlen3, ?_, ?_, ?_⟩
      · intro j hj
        have hjseg : ∀ p, p < np → j ≠ np * seg + p :=
          hj seg (List.mem_cons_self _ _)
        calc qget out j
            = qget (addInlet np seg i0 sr2) j := by
              apply hb3
              intro t ht p2 hp2
              rcases List.mem_cons.mp ht with rfl | htB
              · exact hjseg p2 hp2
              · exact hj t (List.mem_cons_of_mem _
                  (by rw [List.flatMap_cons]; exact List.mem_append.mpr (Or.inr htB))) p2 hp2
          _ = qget sr2 j := addInlet_unchanged np seg i0 sr2 j hjseg
          _ = qget sr j := by
              apply hb1
              intro t ht p2 hp2
              exact hj t (List.mem_cons_of_mem _
                (by rw [List.flatMap_cons]; exact List.mem_append.mpr (Or.inl ht))) p2 hp2
      · intro s hs p hp
        rw [List.flatMap_cons] at hs
        rcases List.mem_append.mp hs with hsA | hsB
        · have hsneseg : s ≠ seg := fun e => hsegnotA (e ▸ hsA)
          have hsnotB : s ∉ rest.flatMap (segVisited inlets fuel) :=
            fun hx => hdisj hsA hx
          calc qget out (np * s + p)
              = qget (addInlet np seg i0 sr2) (np * s + p) := by
                apply hb3
                intro t ht p2 hp2 he
                have hst : s = t := (slot_inj np s p t p2 hp hp2 he).1
                rcases List.mem_cons.mp ht with rfl | htB
                · exact hsneseg hst
                · exact hsnotB (hst ▸ htB)
            _ = qget sr2 (np * s + p) := hAi_other s hsneseg p hp
            _ = qget sr (np * s + p) +
                accSum inlets perfs perfRates np p sr fuel s := hc1 s hsA p hp
        · have hsneseg : s ≠ seg := fun e => hsegnotB (e ▸ hsB)
          have hsnotA : s ∉ segVisited inlets fuel i0 := hBnotA s hsB
          obtain ⟨i1, hi1, hsv1⟩ := List.mem_flatMap.mp hsB
          have hci1 : segComplete inlets fuel i1 := hcomprest i1 hi1
          have hcs : segComplete inlets fuel s :=
            segComplete_of_mem_visited inlets fuel i1 s hci1 hsv1
          have hsubs : ∀ t ∈ segVisited inlets fuel s,
              t ∈ rest.flatMap (segVisited inlets fuel) := by
            intro t ht
            exact List.mem_flatMap.mpr
              ⟨i1, hi1, visited_closed inlets fuel i1 s hci1 hsv1 t ht⟩
          rw [hc3 s hsB p hp,
            (hAi_other s hsneseg p hp).trans (hsr2_other s hsnotA p hp)]
          congr 1
          apply accSum_congr inlets perfs perfRates np p _ _ fuel s hcs
          intro t ht
          have htB := hsubs t ht
          have htne : t ≠ seg := fun e => hsegnotB (e ▸ htB)
          have htnotA : t ∉ segVisited inlets fuel i0 := hBnotA t htB
          exact (hAi_other t htne p hp).trans (hsr2_other t htnotA p hp)
      · intro p hp
        have hsegslot : np * seg + p < sr2.length := by
          rw [hlen2]
          exact slot_lt np seg p inlets.length hsegb hp
        have hget1 : qget (addInlet np seg i0 sr2) (np * seg + p) =
            qget sr2 (np * seg + p) + qget sr2 (np * i0 + p) :=
          addInlet_get np seg i0 hne0 sr2 p hp hsegslot
        have hget2 : qget sr2 (np * seg + p) = qget sr (np * seg + p) :=
          hsr2_other seg hsegnotA p hp
        have hget3 : qget sr2 (np * i0 + p) = qget sr (np * i0 + p) +
            accSum inlets perfs perfRates np p sr fuel i0 := hc1 i0 hmem0 p hp
        have hmapr : rest.map (fun i => qget (addInlet np seg i0 sr2) (np * i + p) +
              accSum inlets perfs perfRates np p (addInlet np seg i0 sr2) fuel i) =
            rest.map (fun i => qget sr (np * i + p) +
              accSum inlets perfs perfRates np p sr fuel i) := by
          apply List.map_congr_left
          intro i1 hi1
          have hci1 : segComplete inlets fuel i1 := hcomprest i1 hi1
          have hi1B : i1 ∈ rest.flatMap (segVisited inlets fuel) :=
            List.mem_flatMap.mpr ⟨i1, hi1, mem_visited_self inlets fuel i1 hci1⟩
          have hi1ne : i1 ≠ seg := fun e => hsegnotB (e ▸ hi1B)
          have hi1nA : i1 ∉ segVisited inlets fuel i0 := hBnotA i1 hi1B
          congr 1
          · exact (hAi_other i1 hi1ne p hp).trans (hsr2_other i1 hi1nA p hp)
          · apply accSum_congr inlets perfs perfRates np p _ _ fuel i1 hci1
            intro t ht
            have htB : t ∈ rest.flatMap (segVisited inlets fuel) :=
              List.mem_flatMap.mpr ⟨i1, hi1, ht⟩
            have htne : t ≠ seg := fun e => hsegnotB (e ▸ htB)
            have htnA : t ∉ segVisited inlets fuel i0 := hBnotA t htB
            exact (hAi_other t htne p hp).trans (hsr2_other t htnA p hp)
        rw [hd3 p hp, hget1, hget2, hget3, hmapr, List.map_cons, List.sum_cons]
        ring

theorem segSpec_succ (inlets perfs : List (List Nat)) (perfRates : List ℚ)
    (np fuel : Nat) (hloop : LoopSpec inlets perfs perfRates np fuel) :
    SegSpec inlets perfs perfRates np (fuel + 1) := by
  intro seg sr out h hlen hnd hbnd
  have hvis : segVisited inlets (fuel + 1) seg =
      seg :: (inlets.getD seg []).flatMap (segVisited inlets fuel) := rfl
  have hsegb : seg < inlets.length :=
    hbnd seg (by rw [hvis]; exact List.mem_cons_self _ _)
  have heq : calcSegAux inlets perfs perfRates np (fuel + 1) seg sr =
      calcInletLoop inlets perfs perfRates np fuel seg (inlets.getD seg [])
        ((perfs.getD seg []).foldl (fun a perf => addPerf np seg perfRates a perf)
          (if seg = 0 then lresize sr (np * inlets.length) else sr)) := by
    simp only [calcSegAux]
  have hres : (if seg = 0 then lresize sr (np * inlets.length) else sr) = sr := by
    by_cases h0 : seg = 0
    · rw [if_pos h0, lresize_self sr _ hlen]
    · rw [if_neg h0]
  rw [heq, hres] at h
  have hlen1 : ((perfs.getD seg []).foldl
      (fun a perf => addPerf np seg perfRates a perf) sr).length = sr.length :=
    perfFold_length _ np seg perfRates sr
  rw [hvis] at hnd hbnd
  have hsegnot : seg ∉ (inlets.getD seg []).flatMap (segVisited inlets fuel) :=
    (List.nodup_cons.mp hnd).1
  have hbndF : ∀ s ∈ (inlets.getD seg []).flatMap (segVisited inlets fuel),
      s < inlets.length := fun s hs => hbnd s (List.mem_cons_of_mem _ hs)
  obtain ⟨ha2, hb2, hc2, hd2⟩ := hloop seg (inlets.getD seg [])
    ((perfs.getD seg []).foldl (fun a perf => addPerf np seg perfRates a perf) sr)
    out h (hlen1.trans hlen) hnd hbndF hsegb
  have hcompl : ∀ i ∈ inlets.getD seg [], segComplete inlets fuel i :=
    (calc_complete_pair inlets perfs perfRates np fuel).2 seg _ _ out h
  have hslot_ne : ∀ s t : Nat, s ≠ t → ∀ p, p < np →
      (∀ p2, p2 < np → np * s + p ≠ np * t + p2) := by
    intro s t hst p hp p2 hp2 he
    exact hst (slot_inj np s p t p2 hp hp2 he).1
  have hsr1_other : ∀ j, (∀ p, p < np → j ≠ np * seg + p) →
      qget ((perfs.getD seg []).foldl
        (fun a perf => addPerf np seg perfRates a perf) sr) j = qget sr j :=
    fun j hj => perfFold_other _ np seg perfRates j hj sr
  have hsr1_seg : ∀ p, p < np →
      qget ((perfs.getD seg []).foldl
        (fun a perf => addPerf np seg perfRates a perf) sr) (np * seg + p) =
      qget sr (np * seg + p) + perfSum perfs perfRates np p seg := by
    intro p hp
    have hps := perfFold_self (perfs.getD seg []) np seg perfRates p hp sr
      (by rw [hlen]; exact slot_lt np seg p inlets.length hsegb hp)
    simpa [perfSum] using hps
  refine ⟨ha2.trans hlen1, ?_, ?_⟩
  · intro j hj
    rw [hvis] at hj
    rw [hb2 j hj]
    exact hsr1_other j (fun p hp => hj seg (List.mem_cons_self _ _) p hp)
  · intro s hs p hp
    rw [hvis] at hs
    rcases List.mem_cons.mp hs with rfl | hsF
    · rw [hd2 p hp, hsr1_seg p hp]
      have hmap : (inlets.getD s []).map (fun i =>
            qget ((perfs.getD s []).foldl
              (fun a perf => addPerf np s perfRates a perf) sr) (np * i + p) +
            accSum inlets perfs perfRates np p
              ((perfs.getD s []).foldl
                (fun a perf => addPerf np s perfRates a perf) sr) fuel i) =
          (inlets.getD s []).map (fun i => qget sr (np * i + p) +
            accSum inlets perfs perfRates np p sr fuel i) := by
        apply List.map_congr_left
        intro i hi
        have hci := hcompl i hi
        have hiF : i ∈ (inlets.getD s []).flatMap (segVisited inlets fuel) :=
          List.mem_flatMap.mpr ⟨i, hi, mem_visited_self inlets fuel i hci⟩
        have hine : i ≠ s := fun e => hsegnot (e ▸ hiF)
        congr 1
        · exact hsr1_other (np * i + p) (hslot_ne i s hine p hp)
        · apply accSum_congr inlets perfs perfRates np p _ _ fuel i hci
          intro t ht
          have htF : t ∈ (inlets.getD s []).flatMap (segVisited inlets fuel) :=
            List.mem_flatMap.mpr ⟨i, hi, ht⟩
          have htne : t ≠ s := fun e => hsegnot (e ▸ htF)
          exact hsr1_other (np * t + p) (hslot_ne t s htne p hp)
      rw [hmap]
      have hacc : accSum inlets perfs perfRates np p sr (fuel + 1) s =
          perfSum perfs perfRates np p s +
          ((inlets.getD s []).map (fun i => qget sr (np * i + p) +
            accSum inlets perfs perfRates np p sr fuel i)).sum := rfl
      rw [hacc]
      ring
    · rw [hc2 s hsF p hp]
      have hsne : s ≠ seg := fun e => hsegnot (e ▸ hsF)
      obtain ⟨i1, hi1, hsv⟩ := List.mem_flatMap.mp hsF
      have hci1 := hcompl i1 hi1
      have hcs : segComplete inlets fuel s :=
        segComplete_of_mem_visited inlets fuel i1 s hci1 hsv
      rw [hsr1_other (np * s + p) (hslot_ne s seg hsne p hp)]
      congr 1
      have hcongr : accSum inlets perfs perfRates np p
          ((perfs.getD seg []).foldl
            (fun a perf => addPerf np seg perfRates a perf) sr) fuel s =
          accSum inlets perfs perfRates np p sr fuel s := by
        apply accSum_congr inlets perfs perfRates np p _ _ fuel s hcs
        intro t ht
        have htF : t ∈ (inlets.getD seg []).flatMap (segVisited inlets fuel) :=
          List.mem_flatMap.mpr ⟨i1, hi1, visited_closed inlets fuel i1 s hci1 hsv t ht⟩
        have htne : t ≠ seg := fun e => hsegnot (e ▸ htF)
        exact hsr1_other (np * t + p) (hslot_ne t seg htne p hp)
      rw [hcongr]
      exact accSum_stable inlets perfs perfRates np p sr fuel (fuel + 1) s hcs
        (segComplete_mono inlets fuel (fuel + 1) s (Nat.le_succ fuel) hcs)

/-- The full induction: the segment invariant holds at every fuel. -/
theorem segSpec_all (inlets perfs : List (List Nat)) (perfRates : List ℚ)
    (np : Nat) : ∀ fuel, SegSpec inlets perfs perfRates np fuel := by
  intro fuel
  induction fuel with
  | zero => exact segSpec_zero inlets perfs perfRates np
  | succ fuel ih =>
    exact segSpec_succ inlets perfs perfRates np fuel
      (loopSpec_of_segSpec inlets perfs perfRates np fuel ih)

theorem lresize_length (l : List ℚ) (n : Nat) : (lresize l n).length = n := by
  simp only [lresize, List.length_append, List.length_take, List.length_replicate]
  omega

/-- With a rank function decreasing along inlet links, the recursion
terminates once the fuel exceeds the starting segment's rank. -/
theorem calc_terminates (inlets perfs : List (List Nat)) (perfRates : List ℚ)
    (np : Nat) (rank : Nat → Nat)
    (hrank : ∀ s, s < inlets.length → ∀ i ∈ inlets.getD s [],
      i < inlets.length ∧ rank i < rank s) :
    ∀ fuel seg, seg < inlets.length → rank seg < fuel →
      ∀ sr, ∃ out, calcSegAux inlets perfs perfRates np fuel seg sr = some out := by
  intro fuel
  induction fuel with
  | zero =>
    intro seg _ hr
    omega
  | succ f ih =>
    intro seg hsegb hr sr
    have hloop : ∀ is, (∀ i ∈ is, i ∈ inlets.getD seg []) → ∀ a,
        ∃ out, calcInletLoop inlets perfs perfRates np f seg is a = some out := by
      intro is
      induction is with
      | nil =>
        intro _ a
        exact ⟨a, by simp [calcInletLoop]⟩
      | cons i0 rest ihl =>
        intro hsub a
        obtain ⟨hib, hir⟩ := hrank seg hsegb i0 (hsub i0 (List.mem_cons_self _ _))
        obtain ⟨a2, ha2⟩ := ih i0 hib (by omega) a
        obtain ⟨out, hout⟩ := ihl (fun i hi => hsub i (List.mem_cons_of_mem _ hi))
          (addInlet np seg i0 a2)
        refine ⟨out, ?_⟩
        simp only [calcInletLoop]
        rw [ha2]
        exact hout
    obtain ⟨out, hout⟩ := hloop (inlets.getD seg []) (fun i hi => hi)
      ((perfs.getD seg []).foldl (fun a perf => addPerf np seg perfRates a perf)
        (if seg = 0 then lresize sr (np * inlets.length) else sr))
    refine ⟨out, ?_⟩
    simp only [calcSegAux]
    exact hout

/-- The array length is preserved by the recursion once it is the full
`np * nseg`. -/
theorem calc_len_pair (inlets perfs : List (List Nat)) (perfRates : List ℚ)
    (np : Nat) :
    ∀ fuel,
      (∀ seg sr out, calcSegAux inlets perfs perfRates np fuel seg sr = some out →
        sr.length = np * inlets.length → out.length = np * inlets.length) ∧
      (∀ seg is sr out,
        calcInletLoop inlets perfs perfRates np fuel seg is sr = some out →
        sr.length = np * inlets.length → out.length = np * inlets.length) := by
  intro fuel
  induction fuel with
  | zero =>
    constructor
    · intro seg sr out h
      simp [calcSegAux] at h
    · intro seg is sr out h hlen
      cases is with
      | nil =>
        have hout : sr = out := by simpa [calcInletLoop] using h
        subst hout
        exact hlen
      | cons i0 rest => simp [calcInletLoop, calcSegAux] at h
  | succ fuel ih =>
    have hseg : ∀ seg sr out,
        calcSegAux inlets perfs perfRates np (fuel + 1) seg sr = some out →
        sr.length = np * inlets.length → out.length = np * inlets.length := by
      intro seg sr out h hlen
      have heq : calcSegAux inlets perfs perfRates np (fuel + 1) seg sr =
          calcInletLoop inlets perfs perfRates np fuel seg (inlets.getD seg [])
            ((perfs.getD seg []).foldl (fun a perf => addPerf np seg perfRates a perf)
              (if seg = 0 then lresize sr (np * inlets.length) else sr)) := by
        simp only [calcSegAux]
      rw [heq] at h
      refine ih.2 seg (inlets.getD seg []) _ out h ?_
      rw [perfFold_length]
      by_cases h0 : seg = 0
      · rw [if_pos h0, lresize_length]
      · rw [if_neg h0]
        exact hlen
    refine ⟨hseg, ?_⟩
    intro seg is
    induction is with
    | nil =>
      intro sr out h hlen
      have hout : sr = out := by simpa [calcInletLoop] using h
      subst hout
      exact hlen
    | cons i0 rest ihl =>
      intro sr out h hlen
      simp only [calcInletLoop] at h
      cases hc : calcSegAux inlets perfs perfRates np (fuel + 1) i0 sr with
      | none => rw [hc] at h; simp at h
      | some sr2 =>
        rw [hc] at h
        refine ihl _ out h ?_
        rw [addInlet_len]
        exact hseg i0 sr sr2 hc hlen

/-- Regardless of the input array, a successful run started at the top
segment yields an array of exactly `np * nseg` entries (the resize happens
at entry, before any accumulation). -/
theorem calc_top_length (inlets perfs : List (List Nat)) (perfRates : List ℚ)
    (np fuel : Nat) (sr out : List ℚ)
    (h : calcSegAux inlets perfs perfRates np (fuel + 1) 0 sr = some out) :
    out.length = np * inlets.length := by
  have heq : calcSegAux inlets perfs perfRates np (fuel + 1) 0 sr =
      calcInletLoop inlets perfs perfRates np fuel 0 (inlets.getD 0 [])
        ((perfs.getD 0 []).foldl (fun a perf => addPerf np 0 perfRates a perf)
          (lresize sr (np * inlets.length))) := by
    simp only [calcSegAux, if_pos]
  rw [heq] at h
  refine (calc_len_pair inlets perfs perfRates np fuel).2 0 _ _ out h ?_
  rw [perfFold_length, lresize_length]

/-! Tree-structure facts about the visited set of the segment recursion,
derived from the uniqueness of parents in the inlet topology. -/

theorem count_flatten {α : Type} [DecidableEq α] (L : List (List α)) (x : α) :
    L.flatten.count x = (L.map (fun l => l.count x)).sum := by
  induction L with
  | nil => rfl
  | cons l L ih => simp [List.count_append, ih]

theorem getD_le_sum (l : List Nat) (s : Nat) : l.getD s 0 ≤ l.sum := by
  induction l generalizing s with
  | nil => simp
  | cons a t ih =>
    cases s with
    | zero => simp [List.sum_cons]
    | succ s =>
      have := ih s
      simp only [List.getD_cons_succ, List.sum_cons]
      omega

theorem sum_ge_two_getD (l : List Nat) (s t : Nat) (hne : s ≠ t) :
    l.getD s 0 + l.getD t 0 ≤ l.sum := by
  induction l generalizing s t with
  | nil => simp
  | cons a tl ih =>
    cases s with
    | zero =>
      cases t with
      | zero => exact absurd rfl hne
      | succ t =>
        have := getD_le_sum tl t
        simp only [List.getD_cons_zero, List.getD_cons_succ, List.sum_cons]
        omega
    | succ s =>
      cases t with
      | zero =>
        have := getD_le_sum tl s
        simp only [List.getD_cons_zero, List.getD_cons_succ, List.sum_cons]
        omega
      | succ t =>
        have := ih s t (fun h => hne (congrArg Nat.succ h))
        simp only [List.getD_cons_succ, List.sum_cons]
        omega

theorem mem_flatten_getD {α : Type} (L : List (List α)) (s : Nat) (x : α)
    (hx : x ∈ L.getD s []) : x ∈ L.flatten := by
  by_cases hs : s < L.length
  · refine List.mem_flatten.mpr ⟨L.getD s [], ?_, hx⟩
    rw [List.getD_eq_getElem L [] hs]
    exact List.getElem_mem hs
  · rw [List.getD_eq_default L [] (Nat.le_of_not_lt hs)] at hx
    exact absurd hx (List.not_mem_nil x)

theorem child_ne_zero (inlets : List (List Nat))
    (h0 : inlets.flatten.count 0 = 0) (s i : Nat) (hi : i ∈ inlets.getD s []) :
    i ≠ 0 := by
  intro h
  subst h
  have := List.count_pos_iff.mpr (mem_flatten_getD inlets s 0 hi)
  omega

theorem getD_map_count (inlets : List (List Nat)) (x s : Nat) :
    (inlets.map (fun l => l.count x)).getD s 0 = (inlets.getD s []).count x :=
  getD_map_apply (fun l => l.count x) inlets s []

theorem count_getD_le (inlets : List (List Nat)) (x s : Nat) :
    (inlets.getD s []).count x ≤ inlets.flatten.count x := by
  rw [count_flatten, ← getD_map_count]
  exact getD_le_sum (inlets.map (fun l => l.count x)) s

theorem parent_unique (inlets : List (List Nat))
    (htree : ∀ s, 0 < s → s < inlets.length → inlets.flatten.count s = 1)
    (h0 : inlets.flatten.count 0 = 0)
    (hcb : ∀ s, s < inlets.length → ∀ i ∈ inlets.getD s [], i < inlets.length)
    (x s t : Nat) (hs : s < inlets.length)
    (hxs : x ∈ inlets.getD s []) (hxt : x ∈ inlets.getD t []) : s = t := by
  by_contra hne
  have hx0 : x ≠ 0 := child_ne_zero inlets h0 s x hxs
  have hxb : x < inlets.length := hcb s hs x hxs
  have hcnt := htree x (Nat.pos_of_ne_zero hx0) hxb
  rw [count_flatten] at hcnt
  have hs1 : 0 < (inlets.getD s []).count x := List.count_pos_iff.mpr hxs
  have ht1 : 0 < (inlets.getD t []).count x := List.count_pos_iff.mpr hxt
  have hsum := sum_ge_two_getD (inlets.map (fun l => l.count x)) s t hne
  rw [getD_map_count, getD_map_count] at hsum
  omega

theorem child_nodup (inlets : List (List Nat))
    (htree : ∀ s, 0 < s → s < inlets.length → inlets.flatten.count s = 1)
    (h0 : inlets.flatten.count 0 = 0)
    (hcb : ∀ s, s < inlets.length → ∀ i ∈ inlets.getD s [], i < inlets.length)
    (s : Nat) (hs : s < inlets.length) : (inlets.getD s []).Nodup := by
  rw [List.nodup_iff_count_le_one]
  intro x
  by_cases hx : x ∈ inlets.getD s []
  · have hx0 : x ≠ 0 := child_ne_zero inlets h0 s x hx
    have hxb : x < inlets.length := hcb s hs x hx
    have h1 := htree x (Nat.pos_of_ne_zero hx0) hxb
    have hle := count_getD_le inlets x s
    omega
  · have := List.count_eq_zero_of_not_mem hx
    omega

theorem parent_in_visited (inlets : List (List Nat)) :
    ∀ f s t, t ∈ segVisited inlets f s → t ≠ s →
      ∃ u ∈ segVisited inlets f s, t ∈ inlets.getD u [] := by
  intro f
  induction f with
  | zero => intro s t ht; simp [segVisited] at ht
  | succ f ih =>
    intro s t ht hne
    simp only [segVisited, List.mem_cons, List.mem_flatMap] at ht
    rcases ht with rfl | ⟨c, hc, htc⟩
    · exact absurd rfl hne
    · by_cases hts : t = c
      · subst hts
        exact ⟨s, List.mem_cons_self s _, hc⟩
      · obtain ⟨u, hu, hx⟩ := ih c t htc hts
        refine ⟨u, ?_, hx⟩
        simp only [segVisited, List.mem_cons, List.mem_flatMap]
        exact Or.inr ⟨c, hc, hu⟩

theorem visited_rank (inlets : List (List Nat)) (rank : Nat → Nat)
    (hrank : ∀ s, s < inlets.length → ∀ i ∈ inlets.getD s [],
      i < inlets.length ∧ rank i < rank s) :
    ∀ f s t, s < inlets.length → t ∈ segVisited inlets f s →
      t < inlets.length ∧ (t = s ∨ rank t < rank s) := by
  intro f
  induction f with
  | zero => intro s t _ ht; simp [segVisited] at ht
  | succ f ih =>
    intro s t hs ht
    simp only [segVisited, List.mem_cons, List.mem_flatMap] at ht
    rcases ht with rfl | ⟨c, hc, htc⟩
    · exact ⟨hs, Or.inl rfl⟩
    · obtain ⟨hcb, hcr⟩ := hrank s hs c hc
      obtain ⟨htb, hd⟩ := ih c t hcb htc
      refine ⟨htb, Or.inr ?_⟩
      rcases hd with rfl | h
      · exact hcr
      · omega

theorem nodup_flatMap_of_disjoint {α β : Type} (C : List α) (g : α → List β)
    (hnd : C.Nodup) (hng : ∀ c ∈ C, (g c).Nodup)
    (hdisj : ∀ c1 ∈ C, ∀ c2 ∈ C, c1 ≠ c2 → ∀ x ∈ g c1, x ∉ g c2) :
    (C.flatMap g).Nodup := by
  induction C with
  | nil => simp
  | cons a t ih =>
    simp only [List.flatMap_cons]
    rw [List.nodup_append]
    refine ⟨hng a (List.mem_cons_self a t), ?_, ?_⟩
    · exact ih (List.Nodup.of_cons hnd)
        (fun c hc => hng c (List.mem_cons_of_mem a hc))
        (fun c1 h1 c2 h2 hne =>
          hdisj c1 (List.mem_cons_of_mem a h1) c2 (List.mem_cons_of_mem a h2) hne)
    · intro x hx hx2
      rw [List.mem_flatMap] at hx2
      obtain ⟨c, hc, hxc⟩ := hx2
      have hac : a ≠ c := by
        rintro rfl
        exact (List.nodup_cons.mp hnd).1 hc
      exact hdisj a (List.mem_cons_self a t) c (List.mem_cons_of_mem a hc) hac x hx hxc

theorem visited_disjoint (inlets : List (List Nat)) (rank : Nat → Nat)
    (hrank : ∀ s, s < inlets.length → ∀ i ∈ inlets.getD s [],
      i < inlets.length ∧ rank i < rank s)
    (htree : ∀ s, 0 < s → s < inlets.length → inlets.flatten.count s = 1)
    (h0 : inlets.flatten.count 0 = 0)
    (hrb : ∀ s, s < inlets.length → rank s < inlets.length) :
    ∀ n t f s i j, inlets.length - rank t ≤ n →
      s < inlets.length → i ∈ inlets.getD s [] → j ∈ inlets.getD s [] → i ≠ j →
      t ∈ segVisited inlets f i → t ∈ segVisited inlets f j → False := by
  have hcb : ∀ u, u < inlets.length → ∀ x ∈ inlets.getD u [], x < inlets.length :=
    fun u hu x hx => (hrank u hu x hx).1
  intro n
  induction n with
  | zero =>
    intro t f s i j hm hs hi hj hne hti htj
    obtain ⟨hib, _⟩ := hrank s hs i hi
    have htb : t < inlets.length := (visited_rank inlets rank hrank f i t hib hti).1
    have := hrb t htb
    omega
  | succ n ih =>
    intro t f s i j hm hs hi hj hne hti htj
    obtain ⟨hib, hir⟩ := hrank s hs i hi
    obtain ⟨hjb, hjr⟩ := hrank s hs j hj
    by_cases hti0 : t = i
    · subst hti0
      obtain ⟨u, hu, hxu⟩ := parent_in_visited inlets f j t htj hne
      have hub : u < inlets.length := (visited_rank inlets rank hrank f j u hjb hu).1
      have hus : u = s := parent_unique inlets htree h0 hcb t u s hub hxu hi
      have hd := (visited_rank inlets rank hrank f j u hjb hu).2
      rcases hd with heq | hlt
      · have : rank s = rank j := by rw [← hus, heq]
        omega
      · have : rank u = rank s := congrArg rank hus
        omega
    · by_cases htj0 : t = j
      · subst htj0
        obtain ⟨u, hu, hxu⟩ := parent_in_visited inlets f i t hti hti0
        have hub : u < inlets.length := (visited_rank inlets rank hrank f i u hib hu).1
        have hus : u = s := parent_unique inlets htree h0 hcb t u s hub hxu hj
        have hd := (visited_rank inlets rank hrank f i u hib hu).2
        rcases hd with heq | hlt
        · have : rank s = rank i := by rw [← hus, heq]
          omega
        · have : rank u = rank s := congrArg rank hus
          omega
      · obtain ⟨u1, hu1, hx1⟩ := parent_in_visited inlets f i t hti hti0
        obtain ⟨u2, hu2, hx2⟩ := parent_in_visited inlets f j t htj htj0
        have hu1b : u1 < inlets.length :=
          (visited_rank inlets rank hrank f i u1 hib hu1).1
        have hu2b : u2 < inlets.length :=
          (visited_rank inlets rank hrank f j u2 hjb hu2).1
        have hequ : u1 = u2 := parent_unique inlets htree h0 hcb t u1 u2 hu1b hx1 hx2
        subst hequ
        have hru : rank t < rank u1 := (hrank u1 hu1b t hx1).2
        exact ih u1 f s i j (by omega) hs hi hj hne hu1 hu2

theorem visited_nodup (inlets : List (List Nat)) (rank : Nat → Nat)
    (hrank : ∀ s, s < inlets.length → ∀ i ∈ inlets.getD s [],
      i < inlets.length ∧ rank i < rank s)
    (htree : ∀ s, 0 < s → s < inlets.length → inlets.flatten.count s = 1)
    (h0 : inlets.flatten.count 0 = 0)
    (hrb : ∀ s, s < inlets.length → rank s < inlets.length) :
    ∀ n f s, rank s < n → s < inlets.length → segComplete inlets f s →
      (segVisited inlets f s).Nodup := by
  intro n
  induction n with
  | zero => intro f s h; omega
  | succ n ih =>
    intro f s hr hs hc
    cases f with
    | zero => exact absurd hc (by simp [segComplete])
    | succ f =>
      simp only [segVisited]
      rw [List.nodup_cons]
      constructor
      · intro hmem
        rw [List.mem_flatMap] at hmem
        obtain ⟨c, hc2, hsc⟩ := hmem
        obtain ⟨hcb2, hcr⟩ := hrank s hs c hc2
        have hd := (visited_rank inlets rank hrank f c s hcb2 hsc).2
        rcases hd with rfl | hlt
        · omega
        · omega
      · apply nodup_flatMap_of_disjoint
        · exact child_nodup inlets htree h0
            (fun u hu x hx => (hrank u hu x hx).1) s hs
        · intro c hcm
          obtain ⟨hcb2, hcr⟩ := hrank s hs c hcm
          exact ih f c (by omega) hcb2 (hc c hcm)
        · intro c1 h1 c2 h2 hne x hx1 hx2
          exact visited_disjoint inlets rank hrank htree h0 hrb inlets.length x f
            s c1 c2 (Nat.sub_le _ _) hs h1 h2 hne hx1 hx2

theorem visited_cover (inlets : List (List Nat)) (rank : Nat → Nat)
    (hrank : ∀ s, s < inlets.length → ∀ i ∈ inlets.getD s [],
      i < inlets.length ∧ rank i < rank s)
    (htree : ∀ s, 0 < s → s < inlets.length → inlets.flatten.count s = 1)
    (hrb : ∀ s, s < inlets.length → rank s < inlets.length) (F : Nat)
    (hc0 : segComplete inlets F 0) :
    ∀ n s, inlets.length - rank s ≤ n → s < inlets.length →
      s ∈ segVisited inlets F 0 := by
  intro n
  induction n with
  | zero =>
    intro s hm hs
    have := hrb s hs
    omega
  | succ n ih =>
    intro s hm hs
    by_cases hs0 : s = 0
    · subst hs0
      exact mem_visited_self inlets F 0 hc0
    · have hcnt := htree s (Nat.pos_of_ne_zero hs0) hs
      have hmem : s ∈ inlets.flatten := List.count_pos_iff.mp (by omega)
      obtain ⟨l, hl, hsl⟩ := List.mem_flatten.mp hmem
      obtain ⟨t, htb, hteq⟩ := List.getElem_of_mem hl
      have hst : s ∈ inlets.getD t [] := by
        rw [List.getD_eq_getElem inlets [] htb, hteq]
        exact hsl
      have hrt := (hrank t htb s hst).2
      have htv : t ∈ segVisited inlets F 0 := ih t (by omega) htb
      have hct : segComplete inlets F t :=
        segComplete_of_mem_visited inlets F 0 t hc0 htv
      have hsv : s ∈ segVisited inlets F t := by
        cases F with
        | zero => exact absurd hct (by simp [segComplete])
        | succ F2 =>
          simp only [segVisited, List.mem_cons, List.mem_flatMap]
          exact Or.inr ⟨s, hst, mem_visited_self inlets F2 s (hct s hst)⟩
      exact visited_closed inlets F 0 t hc0 htv s hsv

theorem visited_perm_range (inlets : List (List Nat)) (rank : Nat → Nat)
    (hrank : ∀ s, s < inlets.length → ∀ i ∈ inlets.getD s [],
      i < inlets.length ∧ rank i < rank s)
    (htree : ∀ s, 0 < s → s < inlets.length → inlets.flatten.count s = 1)
    (h0 : inlets.flatten.count 0 = 0)
    (hrb : ∀ s, s < inlets.length → rank s < inlets.length) (F : Nat)
    (hc0 : segComplete inlets F 0) (hlen0 : 0 < inlets.length) :
    (segVisited inlets F 0).Perm (List.range inlets.length) := by
  refine (List.perm_ext_iff_of_nodup ?_ (List.nodup_range inlets.length)).mpr ?_
  · exact visited_nodup inlets rank hrank htree h0 hrb (rank 0 + 1) F 0
      (Nat.lt_succ_self _) hlen0 hc0
  · intro a
    constructor
    · intro ha
      rw [List.mem_range]
      exact (visited_rank inlets rank hrank F 0 a hlen0 ha).1
    · intro ha
      rw [List.mem_range] at ha
      exact visited_cover inlets rank hrank htree hrb F hc0 inlets.length a
        (Nat.sub_le _ _) ha

theorem map_flatMap_q {α β γ : Type} (l : List α) (f : α → List β) (g : β → γ) :
    (l.flatMap f).map g = l.flatMap (fun a => (f a).map g) := by
  induction l with
  | nil => rfl
  | cons a t ih => simp [ih]

theorem sum_flatMap_q {α : Type} (l : List α) (f : α → List ℚ) :
    (l.flatMap f).sum = (l.map (fun a => (f a).sum)).sum := by
  induction l with
  | nil => rfl
  | cons a t ih => simp [ih]

theorem qget_replicate_zero (n j : Nat) : qget (List.replicate n (0 : ℚ)) j = 0 := by
  unfold qget
  by_cases h : j < n
  · rw [List.getD_eq_getElem _ _ (by simpa using h)]
    simp
  · rw [List.getD_eq_default _ _ (by simpa using Nat.le_of_not_lt h)]

theorem accSum_eq_visited_sum (inlets perfs : List (List Nat)) (perfRates : List ℚ)
    (np p : Nat) (sr : List ℚ) (hz : ∀ j, qget sr j = 0) :
    ∀ f s, segComplete inlets f s →
      accSum inlets perfs perfRates np p sr f s =
        ((segVisited inlets f s).map (perfSum perfs perfRates np p)).sum := by
  intro f
  induction f with
  | zero => intro s h; exact absurd h (by simp [segComplete])
  | succ f ih =>
    intro s hc
    simp only [accSum, segVisited, List.map_cons, List.sum_cons]
    congr 1
    rw [map_flatMap_q, sum_flatMap_q]
    apply congrArg List.sum
    apply List.map_congr_left
    intro i hi
    rw [hz, zero_add, ih i (hc i hi)]

theorem sum_over_positions {α : Type} (L : List (List α)) (g : α → ℚ) :
    ((List.range L.length).map (fun t => ((L.getD t []).map g).sum)).sum =
      (L.flatten.map g).sum := by
  induction L with
  | nil => rfl
  | cons l L ih =>
    rw [List.length_cons, List.range_succ_eq_map, List.map_cons, List.map_map,
      List.sum_cons]
    have hcomp : ((fun t => (((l :: L).getD t []).map g).sum) ∘ Nat.succ) =
        (fun t => ((L.getD t []).map g).sum) := rfl
    rw [hcomp, ih]
    simp [List.sum_append]

/-- C10: for every inlet topology whose inlet relation is acyclic
(witnessed by a rank function that decreases along inlet links and stays in
range), the recursive `calculateSegmentRates` terminates, and the initial
call with segment 0 first resizes the output vector to `num_phases` times
the number of segments — whatever the size of the vector passed in. -/
theorem calculateSegmentRates_terminates (inlets perfs : List (List Nat))
    (perfRates : List ℚ) (np : Nat) (segment_rates : List ℚ) (rank : Nat → Nat)
    (hrank : ∀ s, s < inlets.length → ∀ i ∈ inlets.getD s [],
      i < inlets.length ∧ rank i < rank s)
    (hrank0 : rank 0 < inlets.length + 1)
    (hlen0 : 0 < inlets.length) :
    ∃ out, calculateSegmentRates inlets perfs perfRates np segment_rates = some out ∧
      out.length = np * inlets.length := by
  obtain ⟨out, hout⟩ := calc_terminates inlets perfs perfRates np rank hrank
    (inlets.length + 1) 0 hlen0 hrank0 segment_rates
  exact ⟨out, hout,
    calc_top_length inlets perfs perfRates np inlets.length segment_rates out hout⟩

/-- Witness for C10: a three-segment chain (0 ← 1 ← 2) terminates and
resizes an empty input vector to 2 phases × 3 segments. -/
theorem calculateSegmentRates_terminates_witness :
    ∃ out, calculateSegmentRates [[1], [2], []] [[], [], []] [] 2 [] = some out ∧
      out.length = 2 * 3 := by
  obtain ⟨out, h1, h2⟩ := calculateSegmentRates_terminates [[1], [2], []]
    [[], [], []] [] 2 [] (fun s => 2 - s) (by decide) (by decide) (by decide)
  exact ⟨out, h1, h2⟩

/-- C2: for a multi-segment well whose inlet topology is a tree rooted at
segment 0 (every non-top segment is the inlet of exactly one segment, the
top segment of none, and a rank function witnesses acyclicity of the inlet
relation) and whose perforations partition `0 .. nperf-1` across the
segments, after `calculateSegmentRates` every segment's per-phase rate
equals the sum of the per-phase rates of the perforations mapped to it plus
the sum of the resulting per-phase rates of its direct inlet segments, and
the top segment's (index 0) per-phase entry equals the sum of all the
well's perforation rates for that phase. -/
theorem calculateSegmentRates_invariant (inlets perfs : List (List Nat))
    (perfRates : List ℚ) (np nperf : Nat) (out : List ℚ) (rank : Nat → Nat)
    (hrank : ∀ s, s < inlets.length → ∀ i ∈ inlets.getD s [],
      i < inlets.length ∧ rank i < rank s)
    (hrb : ∀ s, s < inlets.length → rank s < inlets.length)
    (htree : ∀ s, s < inlets.length → 0 < s → inlets.flatten.count s = 1)
    (h0cnt : inlets.flatten.count 0 = 0)
    (hlen0 : 0 < inlets.length)
    (hplen : perfs.length = inlets.length)
    (hperm : perfs.flatten.Perm (List.range nperf))
    (hout : calculateSegmentRates inlets perfs perfRates np
      (List.replicate (np * inlets.length) 0) = some out) :
    (∀ s, s < inlets.length → ∀ p, p < np →
      qget out (np * s + p) = perfSum perfs perfRates np p s +
        ((inlets.getD s []).map (fun i => qget out (np * i + p))).sum) ∧
    (∀ p, p < np →
      qget out p =
        ((List.range nperf).map (fun k => qget perfRates (np * k + p))).sum) := by
  have htree2 : ∀ s, 0 < s → s < inlets.length → inlets.flatten.count s = 1 :=
    fun s h1 h2 => htree s h2 h1
  have hz : ∀ j, qget (List.replicate (np * inlets.length) (0 : ℚ)) j = 0 :=
    fun j => qget_replicate_zero _ j
  have hout2 : calcSegAux inlets perfs perfRates np (inlets.length + 1) 0
      (List.replicate (np * inlets.length) 0) = some out := hout
  have hc0 : segComplete inlets (inlets.length + 1) 0 :=
    (calc_complete_pair inlets perfs perfRates np (inlets.length + 1)).1 0 _ out hout2
  have hvb : ∀ s ∈ segVisited inlets (inlets.length + 1) 0, s < inlets.length :=
    fun s hs => (visited_rank inlets rank hrank (inlets.length + 1) 0 s hlen0 hs).1
  have hnd : (segVisited inlets (inlets.length + 1) 0).Nodup :=
    visited_nodup inlets rank hrank htree2 h0cnt hrb (rank 0 + 1)
      (inlets.length + 1) 0 (Nat.lt_succ_self _) hlen0 hc0
  have hlen : (List.replicate (np * inlets.length) (0 : ℚ)).length =
      np * inlets.length := List.length_replicate _ _
  obtain ⟨-, -, hC⟩ := segSpec_all inlets perfs perfRates np (inlets.length + 1)
    0 _ out hout2 hlen hnd hvb
  have hcover : ∀ s, s < inlets.length →
      s ∈ segVisited inlets (inlets.length + 1) 0 :=
    fun s hs => visited_cover inlets rank hrank htree2 hrb (inlets.length + 1) hc0
      inlets.length s (Nat.sub_le _ _) hs
  constructor
  · intro s hs p hp
    have hsv := hcover s hs
    have h1 := hC s hsv p hp
    rw [hz, zero_add] at h1
    have hcs : segComplete inlets (inlets.length + 1) s :=
      segComplete_of_mem_visited inlets (inlets.length + 1) 0 s hc0 hsv
    have h2 : accSum inlets perfs perfRates np p
        (List.replicate (np * inlets.length) 0) (inlets.length + 1) s =
        perfSum perfs perfRates np p s +
        ((inlets.getD s []).map (fun i =>
          qget (List.replicate (np * inlets.length) 0) (np * i + p) +
          accSum inlets perfs perfRates np p
            (List.replicate (np * inlets.length) 0) inlets.length i)).sum := rfl
    have hchild : ∀ i ∈ inlets.getD s [],
        qget (List.replicate (np * inlets.length) (0 : ℚ)) (np * i + p) +
          accSum inlets perfs perfRates np p
            (List.replicate (np * inlets.length) 0) inlets.length i =
        qget out (np * i + p) := by
      intro i hi
      have hib : i < inlets.length := (hrank s hs i hi).1
      have hiv := hcover i hib
      have h3 := hC i hiv p hp
      rw [hz, zero_add] at h3
      have hci : segComplete inlets inlets.length i := hcs i hi
      have hstab := accSum_stable inlets perfs perfRates np p
        (List.replicate (np * inlets.length) 0) (inlets.length + 1)
        inlets.length i
        (segComplete_mono inlets inlets.length (inlets.length + 1) i
          (Nat.le_succ _) hci) hci
      rw [hz, zero_add, ← hstab, ← h3]
    rw [h1, h2]
    congr 1
    exact congrArg List.sum (List.map_congr_left hchild)
  · intro p hp
    have h0v : 0 ∈ segVisited inlets (inlets.length + 1) 0 :=
      mem_visited_self inlets (inlets.length + 1) 0 hc0
    have h1 := hC 0 h0v p hp
    rw [hz, zero_add] at h1
    have e : np * 0 + p = p := by ring
    rw [e] at h1
    rw [h1, accSum_eq_visited_sum inlets perfs perfRates np p _ hz
      (inlets.length + 1) 0 hc0]
    have hpermv := visited_perm_range inlets rank hrank htree2 h0cnt hrb
      (inlets.length + 1) hc0 hlen0
    rw [List.Perm.sum_eq (hpermv.map (perfSum perfs perfRates np p))]
    have hps : (List.range inlets.length).map (perfSum perfs perfRates np p) =
        (List.range perfs.length).map
          (fun t => ((perfs.getD t []).map
            (fun k => qget perfRates (np * k + p))).sum) := by
      rw [hplen]
      rfl
    rw [hps, sum_over_positions]
    rw [List.Perm.sum_eq (hperm.map (fun k => qget perfRates (np * k + p)))]

/-- Witness for C2: a three-segment chain (0 ← 1 ← 2) with one perforation
per segment satisfies the per-segment invariant and the top-segment total. -/
theorem calculateSegmentRates_invariant_witness :
    ∃ out, calculateSegmentRates [[1], [2], []] [[2], [0], [1]]
        [1, 2, 3, 4, 5, 6] 2 (List.replicate 6 0) = some out ∧
      ((∀ s, s < 3 → ∀ p, p < 2 →
        qget out (2 * s + p) = perfSum [[2], [0], [1]] [1, 2, 3, 4, 5, 6] 2 p s +
          (([[1], [2], []].getD s []).map (fun i => qget out (2 * i + p))).sum) ∧
       (∀ p, p < 2 →
        qget out p =
          ((List.range 3).map
            (fun k => qget [1, 2, 3, 4, 5, 6] (2 * k + p))).sum)) := by
  obtain ⟨out, hout⟩ := calc_terminates [[1], [2], []] [[2], [0], [1]]
    [1, 2, 3, 4, 5, 6] 2 (fun s => 2 - s) (by decide) 4 0 (by decide) (by decide)
    (List.replicate 6 0)
  exact ⟨out, hout, calculateSegmentRates_invariant [[1], [2], []] [[2], [0], [1]]
    [1, 2, 3, 4, 5, 6] 2 3 out (fun s => 2 - s) (by decide) (by decide) (by decide)
    (by decide) (by decide) (by decide) (by decide) hout⟩

/-! Division of the surface rates across the perforations: what `init`
actually writes into each perforation block. -/

theorem getD_flatten_replicate {α : Type} (b : List α) (n perf p : Nat) (d : α)
    (hperf : perf < n) (hp : p < b.length) :
    ((List.replicate n b).flatten).getD (b.length * perf + p) d = b.getD p d := by
  induction n generalizing perf with
  | zero => omega
  | succ n ih =>
    rw [List.replicate_succ, List.flatten_cons]
    cases perf with
    | zero =>
      have e : b.length * 0 + p = p := by ring
      rw [e]
      exact getD_append_left b _ p d hp
    | succ perf =>
      have e : b.length * (perf + 1) + p = b.length + (b.length * perf + p) := by
        ring
      rw [e, getD_append_right b _ _ d (by omega)]
      have e2 : b.length + (b.length * perf + p) - b.length =
          b.length * perf + p := by omega
      rw [e2]
      exact ih perf (by omega)

theorem freshPerfPhaseRates_getD (surface_rates : List ℚ) (np num_perf g perf p : Nat)
    (hperf : perf < num_perf) (hp : p < np) :
    qget (freshPerfPhaseRates surface_rates np num_perf g) (np * perf + p) =
      surface_rates.getD p 0 / (g : ℚ) := by
  unfold qget freshPerfPhaseRates
  set b := (List.range np).map (fun q => surface_rates.getD q 0 / (g : ℚ)) with hb
  have hbl : b.length = np := by simp [hb]
  rw [← hbl, getD_flatten_replicate b num_perf perf p 0 hperf (by omega)]
  rw [hb]
  exact getD_map_range _ np p 0 hp

/-- Fresh path of the per-perforation seeding (`init`, first per-well loop):
for an OPEN well each local perforation block holds the surface rates
divided by the well's global number of open connections. -/
theorem initPerfRatesSingle_open_rate (cellPressures : List ℚ) (pu : PhaseUsage)
    (well : Well) (wpd : List PerforationData) (ws : SingleWellState)
    (hopen : well.status = WellStatus.OPEN) (perf p : Nat)
    (hperf : perf < ws.perf_data.size) (hp : p < pu.num_phases) :
    qget (initPerfRatesSingle cellPressures pu well wpd ws).perf_data.phase_rates
        (pu.num_phases * perf + p) =
      ws.surface_rates.getD p 0 / (well.num_open : ℚ) := by
  have h1 : (initPerfRatesSingle cellPressures pu well wpd ws).perf_data.phase_rates
      = freshPerfPhaseRates ws.surface_rates pu.num_phases ws.perf_data.size
          well.num_open := by
    simp only [initPerfRatesSingle, hopen]
    rfl
  rw [h1]
  exact freshPerfPhaseRates_getD ws.surface_rates pu.num_phases ws.perf_data.size
    well.num_open perf p hperf hp

theorem init_timestep_fields (ws prev : SingleWellState) :
    (ws.init_timestep prev).producer = ws.producer ∧
    (ws.init_timestep prev).perf_data = ws.perf_data ∧
    (ws.init_timestep prev).surface_rates = ws.surface_rates ∧
    (ws.init_timestep prev).events_has_control_event =
      ws.events_has_control_event := by
  unfold SingleWellState.init_timestep
  split_ifs <;> exact ⟨rfl, rfl, rfl, rfl⟩

/-- Carryover path of the per-perforation seeding (`init`, warm-start loop)
when the connection count changed: each local perforation block holds the
carried-over surface rates divided by the well's global number of open
connections. -/
theorem carryoverSingle_fresh_rate (pu : PhaseUsage) (well : Well)
    (prevSt : WellState) (nws : SingleWellState) (oi : Nat)
    (hshut : well.status ≠ WellStatus.SHUT)
    (hidx : prevSt.index well.name = some oi)
    (hpw : (prevSt.wells.getD oi default).status ≠ WellStatus.SHUT)
    (hrole : nws.producer = (prevSt.wells.getD oi default).producer)
    (hdiff : nws.perf_data.size ≠ (prevSt.wells.getD oi default).perf_data.size)
    (perf p : Nat) (hperf : perf < nws.perf_data.size) (hp : p < pu.num_phases) :
    qget (carryoverSingle pu well prevSt nws).perf_data.phase_rates
        (pu.num_phases * perf + p) =
      (prevSt.wells.getD oi default).surface_rates.getD p 0 /
        (well.num_open : ℚ) := by
  obtain ⟨hr1, hr2, hr3, hr4⟩ :=
    init_timestep_fields nws (prevSt.wells.getD oi default)
  have hrole2 : (nws.init_timestep (prevSt.wells.getD oi default)).producer =
      (prevSt.wells.getD oi default).producer := by rw [hr1, hrole]
  have hdiff2 : (nws.init_timestep (prevSt.wells.getD oi default)).perf_data.size ≠
      (prevSt.wells.getD oi default).perf_data.size := by rw [hr2]; exact hdiff
  have hkey : (carryoverSingle pu well prevSt nws).perf_data.phase_rates =
      freshPerfPhaseRates (prevSt.wells.getD oi default).surface_rates
        pu.num_phases nws.perf_data.size well.num_open := by
    simp only [carryoverSingle, hidx, if_neg hshut]
    rw [if_neg hpw, if_neg (not_not_intro hrole2)]
    split_ifs <;> simp_all [PerfData.size]
  rw [hkey]
  exact freshPerfPhaseRates_getD _ pu.num_phases _ well.num_open perf p hperf hp

/-- Single-phase usage (oil only) for the divisor counterexample. -/
def puC3 : PhaseUsage :=
  { num_phases := 1, phase_used := fun _ => true, phase_pos := fun _ => 0 }

/-- An OPEN oil-rate-controlled producer with two open connections in the
schedule, only one of which is visible locally. -/
def wellC3 : Well :=
  { name := "W1", isInjector := false, isProducer := true
    status := .OPEN
    prod_controls := { cmode := .ORAT, oil_rate := 6 }
    connections := [{}, {}] }

instance : Inhabited WellState := ⟨{}⟩

/-- The single-well state `init` produces for `wellC3` (fresh path, one
local perforation). -/
def stC3 : SingleWellState :=
  ((WellState.init [10] { wellNames := ["W1"] } [wellC3] [{}] none [[{}]]
      puC3).toOption.getD default).wells.getD 0 default

/-- Counterexample to C3: an OPEN producer with surface oil rate −6, two
open connections in the schedule and a single locally-visible connection
gets a per-connection rate of −3 = −6 / (global open-connection count), not
−6 / (local connection count) = −6 as the claim would demand. -/
theorem init_local_divisor_counterexample :
    stC3.status = WellStatus.OPEN ∧
    stC3.perf_data.size = 1 ∧
    stC3.surface_rates = [-6] ∧
    stC3.perf_data.phase_rates = [-3] ∧
    (-3 : ℚ) = -6 / (wellC3.num_open : ℚ) ∧
    (-3 : ℚ) ≠ -6 / ((1 : Nat) : ℚ) := by
  refine ⟨?_, ?_, ?_, ?_, by norm_num [wellC3, Well.num_open], by norm_num⟩ <;>
    (simp [stC3, WellState.init, WellState.initSingleWell,
      WellState.initSingleWellOk, SingleWellState.mk0,
      SingleWellState.setSurfaceRate, SingleWellState.openWell,
      SingleWellState.stop, SingleWellState.shut, initPerfRatesSingle,
      initCmodeSingle, initStatusSingle, freshPerfPhaseRates,
      ScheduleStep.eventFlag, wellRatesSetOwner, updateWellsDefaultALQ,
      wellC3, puC3, Well.num_open, PerfData.size, List.range_succ, List.range_zero,
      List.mapM.loop, Except.pure, Except.bind, Except.map, Except.instMonad,
      Except.toOption, Bind.bind, Pure.pure, Functor.map];
     all_goals norm_num)
/-- C3 (amended): after initialization — on the fresh path for an OPEN well
and on the carryover path when the connection count changed — each
locally-visible connection holds, for every phase, the well's surface rate
for that phase divided by the well's schedule-global number of open
connections (`getConnections().num_open()`), not by the number of
locally-visible connections. -/
theorem init_perf_rates_global_divisor (cellPressures : List ℚ)
    (pu : PhaseUsage) (well : Well) :
    (∀ wpd ws perf p, well.status = WellStatus.OPEN →
      perf < ws.perf_data.size → p < pu.num_phases →
      qget (initPerfRatesSingle cellPressures pu well wpd ws).perf_data.phase_rates
          (pu.num_phases * perf + p) =
        ws.surface_rates.getD p 0 / (well.num_open : ℚ)) ∧
    (∀ prevSt nws oi perf p, well.status ≠ WellStatus.SHUT →
      prevSt.index well.name = some oi →
      (prevSt.wells.getD oi default).status ≠ WellStatus.SHUT →
      nws.producer = (prevSt.wells.getD oi default).producer →
      nws.perf_data.size ≠ (prevSt.wells.getD oi default).perf_data.size →
      perf < nws.perf_data.size → p < pu.num_phases →
      qget (carryoverSingle pu well prevSt nws).perf_data.phase_rates
          (pu.num_phases * perf + p) =
        (prevSt.wells.getD oi default).surface_rates.getD p 0 /
          (well.num_open : ℚ)) :=
  ⟨fun wpd ws perf p h1 h2 h3 =>
    initPerfRatesSingle_open_rate cellPressures pu well wpd ws h1 perf p h2 h3,
   fun prevSt nws oi perf p h1 h2 h3 h4 h5 h6 h7 =>
    carryoverSingle_fresh_rate pu well prevSt nws oi h1 h2 h3 h4 h5 perf p h6 h7⟩

/-- A one-local-perforation state for the fresh-path witness. -/
def wsC3a : SingleWellState :=
  { name := "W1", parallel_info := {}, producer := true
    surface_rates := [-6], perf_data := { cell_index := [0] } }

/-- Previous-step state of the carryover witness (no local perforations). -/
def pwC3 : SingleWellState :=
  { name := "W1", parallel_info := {}, producer := true, status := .OPEN
    surface_rates := [-6] }

/-- Current-step state of the carryover witness (one local perforation). -/
def nwsC3 : SingleWellState :=
  { name := "W1", parallel_info := {}, producer := true, status := .OPEN
    perf_data := { cell_index := [0] } }

/-- Witness for the amended C3 on both paths. -/
theorem init_perf_rates_global_divisor_witness :
    qget (initPerfRatesSingle [10] puC3 wellC3 [{}] wsC3a).perf_data.phase_rates
        (puC3.num_phases * 0 + 0) =
      wsC3a.surface_rates.getD 0 0 / (wellC3.num_open : ℚ) ∧
    qget (carryoverSingle puC3 wellC3 { wells := [pwC3] }
          nwsC3).perf_data.phase_rates (puC3.num_phases * 0 + 0) =
      pwC3.surface_rates.getD 0 0 / (wellC3.num_open : ℚ) :=
  ⟨(init_perf_rates_global_divisor [10] puC3 wellC3).1 [{}] wsC3a 0 0
      (by decide) (by decide) (by decide),
   (init_perf_rates_global_divisor [10] puC3 wellC3).2 { wells := [pwC3] } nwsC3
      0 0 0 (by decide) (by decide) (by decide) (by decide) (by decide)
      (by decide) (by decide)⟩

theorem init_timestep_fields2 (ws prev : SingleWellState) :
    (ws.init_timestep prev).injection_cmode = ws.injection_cmode ∧
    (ws.init_timestep prev).production_cmode = ws.production_cmode := by
  unfold SingleWellState.init_timestep
  split_ifs <;> exact ⟨rfl, rfl⟩

/-- Carryover with a SHUT previous state: the new state is returned
untouched (`init_timestep` also skips its update then). -/
theorem carryoverSingle_prev_shut (pu : PhaseUsage) (well : Well)
    (prevSt : WellState) (nws : SingleWellState) (oi : Nat)
    (hshut : well.status ≠ WellStatus.SHUT)
    (hidx : prevSt.index well.name = some oi)
    (hpw : (prevSt.wells.getD oi default).status = WellStatus.SHUT) :
    carryoverSingle pu well prevSt nws = nws := by
  have hit : nws.init_timestep (prevSt.wells.getD oi default) = nws := by
    unfold SingleWellState.init_timestep
    by_cases c1 : nws.producer ≠ (prevSt.wells.getD oi default).producer
    · rw [if_pos c1]
    · rw [if_neg c1, if_pos hpw]
  simp only [carryoverSingle, hidx, if_neg hshut]
  rw [hit, if_pos hpw]

/-- Carryover with a flipped producer/injector role: the new state is
returned untouched. -/
theorem carryoverSingle_flip (pu : PhaseUsage) (well : Well)
    (prevSt : WellState) (nws : SingleWellState) (oi : Nat)
    (hshut : well.status ≠ WellStatus.SHUT)
    (hidx : prevSt.index well.name = some oi)
    (hpw : (prevSt.wells.getD oi default).status ≠ WellStatus.SHUT)
    (hrole : nws.producer ≠ (prevSt.wells.getD oi default).producer) :
    carryoverSingle pu well prevSt nws = nws := by
  have hit : nws.init_timestep (prevSt.wells.getD oi default) = nws := by
    unfold SingleWellState.init_timestep
    rw [if_pos hrole]
  simp only [carryoverSingle, hidx, if_neg hshut]
  rw [hit, if_neg hpw, if_pos hrole]

/-- Carryover copy case: previous rates, potentials and productivity index
are copied, and the previous control modes are reused exactly when no
control-changing event is recorded for the well this step. -/
theorem carryoverSingle_copy (pu : PhaseUsage) (well : Well)
    (prevSt : WellState) (nws : SingleWellState) (oi : Nat)
    (hshut : well.status ≠ WellStatus.SHUT)
    (hidx : prevSt.index well.name = some oi)
    (hpw : (prevSt.wells.getD oi default).status ≠ WellStatus.SHUT)
    (hrole : nws.producer = (prevSt.wells.getD oi default).producer) :
    (carryoverSingle pu well prevSt nws).surface_rates =
      (prevSt.wells.getD oi default).surface_rates ∧
    (carryoverSingle pu well prevSt nws).reservoir_rates =
      (prevSt.wells.getD oi default).reservoir_rates ∧
    (carryoverSingle pu well prevSt nws).well_potentials =
      (prevSt.wells.getD oi default).well_potentials ∧
    (carryoverSingle pu well prevSt nws).productivity_index =
      (prevSt.wells.getD oi default).productivity_index ∧
    (carryoverSingle pu well prevSt nws).injection_cmode =
      (if nws.events_has_control_event then nws.injection_cmode
       else (prevSt.wells.getD oi default).injection_cmode) ∧
    (carryoverSingle pu well prevSt nws).production_cmode =
      (if nws.events_has_control_event then nws.production_cmode
       else (prevSt.wells.getD oi default).production_cmode) := by
  obtain ⟨hr1, hr2, hr3, hr4⟩ :=
    init_timestep_fields nws (prevSt.wells.getD oi default)
  obtain ⟨hr5, hr6⟩ := init_timestep_fields2 nws (prevSt.wells.getD oi default)
  have hrole2 : (nws.init_timestep (prevSt.wells.getD oi default)).producer =
      (prevSt.wells.getD oi default).producer := by rw [hr1, hrole]
  simp only [carryoverSingle, hidx, if_neg hshut]
  rw [if_neg hpw, if_neg (not_not_intro hrole2)]
  split_ifs <;> simp_all

/-- `init` with a non-empty previous container: every well's final state is
the carryover transform of the state the same run would produce without a
previous container. -/
theorem init_prev_carryover (cellPressures : List ℚ) (sched : ScheduleStep)
    (wells_ecl : List Well) (pwi : List ParallelWellInfo) (prevSt : WellState)
    (wpd : List (List PerforationData)) (pu : PhaseUsage) (st st0 : WellState)
    (hne : 0 < prevSt.wells.length)
    (hsome : WellState.init cellPressures sched wells_ecl pwi (some prevSt) wpd
      pu = Except.ok st)
    (hnone : WellState.init cellPressures sched wells_ecl pwi none wpd pu =
      Except.ok st0) :
    ∀ w, w < wells_ecl.length →
      st.wells.getD w default =
        carryoverSingle pu (wells_ecl.getD w default) prevSt
          (st0.wells.getD w default) := by
  intro w hw
  simp only [WellState.init] at hsome hnone
  cases hm : (List.range wells_ecl.length).mapM (fun w =>
      WellState.initSingleWell cellPressures (wells_ecl.getD w default)
        (wpd.getD w []) (pwi.getD w default) pu) with
  | error e =>
    rw [hm] at hsome
    simp [Bind.bind, Except.bind, Except.instMonad] at hsome
  | ok l =>
    rw [hm] at hsome hnone
    have h0 : ¬ wells_ecl.length = 0 := by omega
    simp only [Bind.bind, Except.bind, Except.instMonad, Pure.pure, Except.pure,
      if_neg h0, if_pos hne, Except.ok.injEq] at hsome hnone
    subst hsome
    subst hnone
    rw [getD_map_range _ _ w _ hw, getD_map_range _ _ w _ hw]

/-- C6: with a non-empty previous container, every well's final state is the
carryover transform of the fresh state; for a well found by name whose new
status is not SHUT, whose previous status was not SHUT and whose role is
unchanged, the previous surface rates, reservoir rates, well potentials and
productivity index are copied, and the previous control modes are reused
exactly when no control-changing event is recorded this step; newly SHUT
wells, previously SHUT wells and role-flipped wells are left untouched. -/
theorem init_carryover_semantics (pu : PhaseUsage) (well : Well)
    (prevSt : WellState) (nws : SingleWellState) (oi : Nat) :
    (∀ cellPressures sched wells_ecl pwi wpd st st0,
      0 < prevSt.wells.length →
      WellState.init cellPressures sched wells_ecl pwi (some prevSt) wpd pu =
        Except.ok st →
      WellState.init cellPressures sched wells_ecl pwi none wpd pu =
        Except.ok st0 →
      ∀ w, w < wells_ecl.length →
        st.wells.getD w default =
          carryoverSingle pu (wells_ecl.getD w default) prevSt
            (st0.wells.getD w default)) ∧
    (well.status = WellStatus.SHUT → carryoverSingle pu well prevSt nws = nws) ∧
    (well.status ≠ WellStatus.SHUT → prevSt.index well.name = some oi →
      ((prevSt.wells.getD oi default).status = WellStatus.SHUT →
        carryoverSingle pu well prevSt nws = nws) ∧
      ((prevSt.wells.getD oi default).status ≠ WellStatus.SHUT →
        nws.producer ≠ (prevSt.wells.getD oi default).producer →
        carryoverSingle pu well prevSt nws = nws) ∧
      ((prevSt.wells.getD oi default).status ≠ WellStatus.SHUT →
        nws.producer = (prevSt.wells.getD oi default).producer →
        (carryoverSingle pu well prevSt nws).surface_rates =
          (prevSt.wells.getD oi default).surface_rates ∧
        (carryoverSingle pu well prevSt nws).reservoir_rates =
          (prevSt.wells.getD oi default).reservoir_rates ∧
        (carryoverSingle pu well prevSt nws).well_potentials =
          (prevSt.wells.getD oi default).well_potentials ∧
        (carryoverSingle pu well prevSt nws).productivity_index =
          (prevSt.wells.getD oi default).productivity_index ∧
        (carryoverSingle pu well prevSt nws).injection_cmode =
          (if nws.events_has_control_event then nws.injection_cmode
           else (prevSt.wells.getD oi default).injection_cmode) ∧
        (carryoverSingle pu well prevSt nws).production_cmode =
          (if nws.events_has_control_event then nws.production_cmode
           else (prevSt.wells.getD oi default).production_cmode))) := by
  refine ⟨?_, ?_, ?_⟩
  · intro cellPressures sched wells_ecl pwi wpd st st0 hne hsome hnone
    exact init_prev_carryover cellPressures sched wells_ecl pwi prevSt wpd pu
      st st0 hne hsome hnone
  · intro hshut
    simp [carryoverSingle, hshut]
  · intro hshut hidx
    exact ⟨fun hpw => carryoverSingle_prev_shut pu well prevSt nws oi hshut hidx hpw,
      fun hpw hrole => carryoverSingle_flip pu well prevSt nws oi hshut hidx hpw hrole,
      fun hpw hrole => carryoverSingle_copy pu well prevSt nws oi hshut hidx hpw hrole⟩

/-- Single-phase usage for the carryover witness. -/
def puC6 : PhaseUsage :=
  { num_phases := 1, phase_used := fun _ => true, phase_pos := fun _ => 0 }

/-- An OPEN producer for the carryover witness. -/
def wellC6 : Well :=
  { name := "W6", isInjector := false, isProducer := true
    status := .OPEN
    prod_controls := { cmode := .ORAT, oil_rate := 5 }
    connections := [{}] }

/-- The same well, newly SHUT. -/
def wellC6shut : Well := { wellC6 with status := .SHUT }

/-- Previous-step state of the carryover witness. -/
def pwC6 : SingleWellState :=
  { name := "W6", parallel_info := {}, producer := true, status := .OPEN
    surface_rates := [-5], reservoir_rates := [-4], well_potentials := [3]
    productivity_index := [2], production_cmode := .ORAT }

/-- The same previous state, SHUT. -/
def pwC6shut : SingleWellState := { pwC6 with status := .SHUT }

/-- Previous containers for the carryover witness. -/
def prevC6 : WellState := { wells := [pwC6] }

def prevC6shut : WellState := { wells := [pwC6shut] }

/-- Current-step states for the carryover witness. -/
def nwsC6 : SingleWellState :=
  { name := "W6", parallel_info := {}, producer := true, status := .OPEN }

def nwsC6flip : SingleWellState := { nwsC6 with producer := false }

/-- Result of `init` with the previous container. -/
def stC6s : WellState :=
  (WellState.init [10] { wellNames := ["W6"] } [wellC6] [{}] (some prevC6)
      [[{}]] puC6).toOption.getD default

/-- Result of the same `init` run without a previous container. -/
def stC6n : WellState :=
  (WellState.init [10] { wellNames := ["W6"] } [wellC6] [{}] none
      [[{}]] puC6).toOption.getD default

/-- Witness for C6 on all four carryover paths and on the `init` link. -/
theorem init_carryover_semantics_witness :
    (stC6s.wells.getD 0 default =
      carryoverSingle puC6 wellC6 prevC6 (stC6n.wells.getD 0 default)) ∧
    carryoverSingle puC6 wellC6shut prevC6 nwsC6 = nwsC6 ∧
    carryoverSingle puC6 wellC6 prevC6shut nwsC6 = nwsC6 ∧
    carryoverSingle puC6 wellC6 prevC6 nwsC6flip = nwsC6flip ∧
    (carryoverSingle puC6 wellC6 prevC6 nwsC6).surface_rates =
      (prevC6.wells.getD 0 default).surface_rates ∧
    (carryoverSingle puC6 wellC6 prevC6 nwsC6).production_cmode =
      (if nwsC6.events_has_control_event then nwsC6.production_cmode
       else (prevC6.wells.getD 0 default).production_cmode) := by
  have hsome : WellState.init [10] { wellNames := ["W6"] } [wellC6] [{}]
      (some prevC6) [[{}]] puC6 = Except.ok stC6s := by
    simp [stC6s, WellState.init, WellState.initSingleWell,
      WellState.initSingleWellOk, SingleWellState.mk0,
      SingleWellState.setSurfaceRate, SingleWellState.openWell,
      SingleWellState.stop, SingleWellState.shut, SingleWellState.init_timestep,
      initPerfRatesSingle, initCmodeSingle, initStatusSingle, carryoverSingle,
      PerfData.try_assign, PerfData.size, freshPerfPhaseRates,
      ScheduleStep.eventFlag, wellRatesSetOwner, updateWellsDefaultALQ,
      WellState.index, wellC6, pwC6, prevC6, nwsC6, puC6, Well.num_open,
      List.range_succ, List.range_zero, List.mapM.loop, Except.pure,
      Except.bind, Except.map, Except.instMonad, Except.toOption, Bind.bind,
      Pure.pure, Functor.map]
  have hnone : WellState.init [10] { wellNames := ["W6"] } [wellC6] [{}]
      none [[{}]] puC6 = Except.ok stC6n := by
    simp [stC6n, WellState.init, WellState.initSingleWell,
      WellState.initSingleWellOk, SingleWellState.mk0,
      SingleWellState.setSurfaceRate, SingleWellState.openWell,
      SingleWellState.stop, SingleWellState.shut, SingleWellState.init_timestep,
      initPerfRatesSingle, initCmodeSingle, initStatusSingle, carryoverSingle,
      PerfData.try_assign, PerfData.size, freshPerfPhaseRates,
      ScheduleStep.eventFlag, wellRatesSetOwner, updateWellsDefaultALQ,
      WellState.index, wellC6, pwC6, prevC6, nwsC6, puC6, Well.num_open,
      List.range_succ, List.range_zero, List.mapM.loop, Except.pure,
      Except.bind, Except.map, Except.instMonad, Except.toOption, Bind.bind,
      Pure.pure, Functor.map]
  refine ⟨?_, ?_, ?_, ?_, ?_, ?_⟩
  · exact (init_carryover_semantics puC6 wellC6 prevC6 nwsC6 0).1 [10]
      { wellNames := ["W6"] } [wellC6] [{}] [[{}]] stC6s stC6n (by decide)
      hsome hnone 0 (by decide)
  · exact (init_carryover_semantics puC6 wellC6shut prevC6 nwsC6 0).2.1
      (by decide)
  · exact ((init_carryover_semantics puC6 wellC6 prevC6shut nwsC6 0).2.2
      (by decide) (by decide)).1 (by decide)
  · exact ((init_carryover_semantics puC6 wellC6 prevC6 nwsC6flip 0).2.2
      (by decide) (by decide)).2.1 (by decide) (by decide)
  · exact (((init_carryover_semantics puC6 wellC6 prevC6 nwsC6 0).2.2
      (by decide) (by decide)).2.2 (by decide) (by decide)).1
  · exact (((init_carryover_semantics puC6 wellC6 prevC6 nwsC6 0).2.2
      (by decide) (by decide)).2.2 (by decide) (by decide)).2.2.2.2.2

/-! What `reportConnections` writes into the gas entry of a connection. -/

theorem ratesSet_self (r : RateOpt → ℚ) (k : RateOpt) (v : ℚ) :
    ratesSet r k v k = v := by simp [ratesSet]

theorem ratesSet_ne (r : RateOpt → ℚ) (k k2 : RateOpt) (v : ℚ) (h : k2 ≠ k) :
    ratesSet r k v k2 = r k2 := by simp [ratesSet, h]

theorem foldl_ratesSet_frame (f1 f2 : Nat → RateOpt) (v1 v2 : Nat → ℚ)
    (k : RateOpt) :
    ∀ (L : List Nat) (r0 : RateOpt → ℚ),
      (∀ i ∈ L, f1 i ≠ k ∧ f2 i ≠ k) →
      (L.foldl (fun r i =>
        ratesSet (ratesSet r (f1 i) (v1 i)) (f2 i) (v2 i)) r0) k = r0 k := by
  intro L
  induction L with
  | nil => intro r0 _; rfl
  | cons a t ih =>
    intro r0 h
    rw [List.foldl_cons, ih _ (fun i hi => h i (List.mem_cons_of_mem a hi)),
      ratesSet_ne _ _ _ _ (Ne.symm (h a (List.mem_cons_self a t)).2),
      ratesSet_ne _ _ _ _ (Ne.symm (h a (List.mem_cons_self a t)).1)]

theorem foldl_ratesSet_last (f1 f2 : Nat → RateOpt) (v1 v2 : Nat → ℚ)
    (k : RateOpt) (g : Nat) :
    ∀ (L : List Nat) (r0 : RateOpt → ℚ), L.Nodup → g ∈ L → f1 g = k →
      (∀ i ∈ L, f2 i ≠ k) → (∀ i ∈ L, f1 i = k → i = g) →
      (L.foldl (fun r i =>
        ratesSet (ratesSet r (f1 i) (v1 i)) (f2 i) (v2 i)) r0) k = v1 g := by
  intro L
  induction L with
  | nil => intro r0 _ hg; simp at hg
  | cons a t ih =>
    intro r0 hnd hg hf1 hno2 hlast
    rw [List.foldl_cons]
    by_cases hag : a = g
    · subst hag
      rw [foldl_ratesSet_frame f1 f2 v1 v2 k t _ ?_]
      · rw [ratesSet_ne _ _ _ _ (Ne.symm (hno2 a (List.mem_cons_self a t))),
          hf1, ratesSet_self]
      · intro i hi
        refine ⟨fun e => ?_, hno2 i (List.mem_cons_of_mem a hi)⟩
        have hia := hlast i (List.mem_cons_of_mem a hi) e
        subst hia
        exact (List.nodup_cons.mp hnd).1 hi
    · have hgt : g ∈ t := by
        rcases List.mem_cons.mp hg with e | h2
        · exact absurd e.symm hag
        · exact h2
      exact ih _ (List.Nodup.of_cons hnd) hgt hf1
        (fun i hi => hno2 i (List.mem_cons_of_mem a hi))
        (fun i hi e => hlast i (List.mem_cons_of_mem a hi) e)

theorem getD_notgas (l : List RateOpt) (i : Nat)
    (h : ∀ x ∈ l, x ≠ RateOpt.gas) : l.getD i .wat ≠ RateOpt.gas := by
  by_cases hi : i < l.length
  · rw [List.getD_eq_getElem l .wat hi]
    exact h _ (List.getElem_mem hi)
  · rw [List.getD_eq_default l .wat (Nat.le_of_not_lt hi)]
    decide

theorem set_preserves_notgas (l : List RateOpt) (i : Nat) (v : RateOpt)
    (hv : v ≠ RateOpt.gas) (h : ∀ x ∈ l, x ≠ RateOpt.gas) :
    ∀ x ∈ l.set i v, x ≠ RateOpt.gas := fun x hx =>
  (List.mem_or_eq_of_mem_set hx).elim (h x) (fun e => e ▸ hv)

theorem replicate_wat_notgas (np : Nat) :
    ∀ x ∈ List.replicate np RateOpt.wat, x ≠ RateOpt.gas := by
  intro x hx
  rw [List.eq_of_mem_replicate hx]
  decide

theorem connRates_gas (np : Nat) (t1 t2 : List RateOpt)
    (pr pidx : Nat → ℚ) (r0 : RateOpt → ℚ) (gaspos : Nat) (hg : gaspos < np)
    (hA : t1.getD gaspos .wat = RateOpt.gas)
    (hB : ∀ i, t2.getD i .wat ≠ RateOpt.gas)
    (hC : ∀ i, i < np → t1.getD i .wat = RateOpt.gas → i = gaspos) :
    ((List.range np).foldl (fun r i =>
        ratesSet (ratesSet r (t1.getD i .wat) (pr i)) (t2.getD i .wat)
          (pidx i)) r0) RateOpt.gas = pr gaspos :=
  foldl_ratesSet_last (fun i => t1.getD i .wat) (fun i => t2.getD i .wat)
    pr pidx RateOpt.gas gaspos (List.range np) r0 (List.nodup_range np)
    (List.mem_range.mpr hg) hA (fun i _ => hB i)
    (fun i hi e => hC i (List.mem_range.mp hi) e)

theorem ite_ratesSet_gas (c : Prop) [Decidable c] (r : RateOpt → ℚ) (k : RateOpt)
    (v : ℚ) (h : k ≠ RateOpt.gas) :
    (if c then ratesSet r k v else r) RateOpt.gas = r RateOpt.gas := by
  split_ifs with hc
  · exact ratesSet_ne r k _ v (Ne.symm h)
  · rfl

/-- The gas entry each reported connection carries is exactly the persisted
per-perforation gas phase rate. -/
theorem reportConnections_gas (pu : PhaseUsage) (ws : SingleWellState)
    (gmap : Nat → Nat) (hvap : pu.phase_used .Vapour = true)
    (hgas : pu.phase_pos .Vapour < pu.num_phases) (i : Nat)
    (hi : i < ws.perf_data.size) :
    ((reportConnections pu ws gmap).getD i default).rates RateOpt.gas =
      ws.perf_data.phase_rates.getD
        (pu.num_phases * i + pu.phase_pos .Vapour) 0 := by
  simp only [reportConnections, hvap, eq_self_iff_true, if_true]
  rw [getD_map_range _ _ i _ hi]
  dsimp only
  rw [ite_ratesSet_gas _ _ _ _ (by decide), ite_ratesSet_gas _ _ _ _ (by decide),
    ite_ratesSet_gas _ _ _ _ (by decide)]
  refine connRates_gas pu.num_phases _ _ _ _ _ (pu.phase_pos .Vapour) hgas
    ?_ ?_ ?_
  · refine getD_set_self _ _ _ _ ?_
    split_ifs <;> simpa using hgas
  · intro j
    apply getD_notgas
    apply set_preserves_notgas _ _ _ (by decide)
    split_ifs <;> dsimp only <;>
      (repeat' apply set_preserves_notgas _ _ _ (by decide)) <;>
      exact replicate_wat_notgas _
  · intro j hj e
    by_contra hne
    rw [getD_set_ne _ _ _ _ _ (Ne.symm hne)] at e
    refine getD_notgas _ j ?_ e
    split_ifs <;> dsimp only <;>
      (repeat' apply set_preserves_notgas _ _ _ (by decide)) <;>
      exact replicate_wat_notgas _

theorem scaleGas_length (pr : List ℚ) (np gaspos : Nat) :
    ∀ nact, (scaleGasPerfRates pr np gaspos nact).length = pr.length := by
  intro nact
  induction nact with
  | zero => rfl
  | succ n ih =>
    simp only [scaleGasPerfRates] at ih ⊢
    rw [List.range_succ, List.foldl_append, List.foldl_cons, List.foldl_nil,
      List.length_set]
    exact ih

theorem qget_set_self (l : List ℚ) (i : Nat) (v : ℚ) (h : i < l.length) :
    qget (l.set i v) i = v := getD_set_self l i v 0 h

theorem qget_set_ne (l : List ℚ) (i j : Nat) (v : ℚ) (h : i ≠ j) :
    qget (l.set i v) j = qget l j := getD_set_ne l i j v 0 h

theorem scaleGas_other (pr : List ℚ) (np gaspos : Nat) :
    ∀ nact j, (∀ perf, perf < nact → j ≠ perf * np + gaspos) →
      qget (scaleGasPerfRates pr np gaspos nact) j = qget pr j := by
  intro nact
  induction nact with
  | zero => intro j _; rfl
  | succ n ih =>
    intro j hj
    simp only [scaleGasPerfRates] at ih ⊢
    rw [List.range_succ, List.foldl_append, List.foldl_cons, List.foldl_nil,
      qget_set_ne _ _ _ _ (fun e => hj n (Nat.lt_succ_self n) e.symm)]
    exact ih j (fun perf hp => hj perf (Nat.lt_succ_of_lt hp))

theorem scaleGas_self (pr : List ℚ) (np gaspos : Nat) (hnp : 0 < np) :
    ∀ nact perf, perf < nact → perf * np + gaspos < pr.length →
      qget (scaleGasPerfRates pr np gaspos nact) (perf * np + gaspos) =
        qget pr (perf * np + gaspos) * 100 := by
  intro nact
  induction nact with
  | zero => intro perf h; omega
  | succ n ih =>
    intro perf hperf hlen
    simp only [scaleGasPerfRates] at ih ⊢
    rw [List.range_succ, List.foldl_append, List.foldl_cons, List.foldl_nil]
    by_cases hpn : perf = n
    · subst hpn
      have hlength := scaleGas_length pr np gaspos perf
      simp only [scaleGasPerfRates] at hlength
      rw [qget_set_self _ _ _ (by rw [hlength]; exact hlen)]
      have hoth := scaleGas_other pr np gaspos perf (perf * np + gaspos)
        (fun q hq e => by
          have : perf = q := Nat.eq_of_mul_eq_mul_right hnp (by omega)
          omega)
      simp only [scaleGasPerfRates] at hoth
      rw [hoth]
    · have hps : perf * np + gaspos ≠ n * np + gaspos := fun e =>
        hpn (Nat.eq_of_mul_eq_mul_right hnp (by omega))
      rw [qget_set_ne _ _ _ _ (Ne.symm hps)]
      exact ih perf (by omega) hlen

theorem msCarryover_fields (well : Well) (prev : Option SingleWellState)
    (ws : SingleWellState) :
    (msCarryover well prev ws).perf_data = ws.perf_data ∧
    (msCarryover well prev ws).surface_rates = ws.surface_rates := by
  cases prev with
  | none => exact ⟨rfl, rfl⟩
  | some pws =>
    simp only [msCarryover]
    split_ifs <;> exact ⟨rfl, rfl⟩

/-- C1 (amended): the 100× gas pre-scaling of `initWellStateMSWell` is
written into the persisted per-perforation `phase_rates` — every active
perforation's gas slot is multiplied by 100, all other slots are unchanged —
the well-level surface rates are unchanged, and `reportConnections`
afterwards reports exactly those scaled per-connection gas rates. -/
theorem ms_gas_scaling_leaks (pu : PhaseUsage) (well : Well)
    (prev : Option SingleWellState) (ws out : SingleWellState)
    (hms : well.isMultiSegment = true)
    (hvap : pu.phase_used .Vapour = true)
    (hgas : pu.phase_pos .Vapour < pu.num_phases)
    (hsucc : initWellStateMSWellSingle pu well prev ws = some out) :
    (∀ perf, perf < (segmentPerforations well.segments well.connections).2 →
      perf * pu.num_phases + pu.phase_pos .Vapour <
        ws.perf_data.phase_rates.length →
      qget out.perf_data.phase_rates
          (perf * pu.num_phases + pu.phase_pos .Vapour) =
        qget ws.perf_data.phase_rates
          (perf * pu.num_phases + pu.phase_pos .Vapour) * 100) ∧
    (∀ j, (∀ perf, perf < (segmentPerforations well.segments well.connections).2 →
        j ≠ perf * pu.num_phases + pu.phase_pos .Vapour) →
      qget out.perf_data.phase_rates j = qget ws.perf_data.phase_rates j) ∧
    out.surface_rates = ws.surface_rates ∧
    (∀ gmap i, i < out.perf_data.size →
      ((reportConnections pu out gmap).getD i default).rates RateOpt.gas =
        out.perf_data.phase_rates.getD
          (pu.num_phases * i + pu.phase_pos .Vapour) 0) := by
  have hnp : 0 < pu.num_phases := by omega
  simp only [initWellStateMSWellSingle, hms, hvap, eq_self_iff_true, if_true] at hsucc
  split at hsucc
  · exact absurd hsucc (by simp)
  · rw [Option.some.injEq] at hsucc
    subst hsucc
    obtain ⟨hpd, hsr⟩ := msCarryover_fields well prev _
    refine ⟨?_, ?_, ?_, ?_⟩
    · intro perf hperf hlen
      rw [hpd]
      exact scaleGas_self ws.perf_data.phase_rates pu.num_phases
        (pu.phase_pos .Vapour) hnp _ perf hperf hlen
    · intro j hj
      rw [hpd]
      exact scaleGas_other ws.perf_data.phase_rates pu.num_phases
        (pu.phase_pos .Vapour) _ j hj
    · exact hsr
    · intro gmap i hi
      exact reportConnections_gas pu _ gmap hvap hgas i hi

/-- Gas-only phase usage for the scaling counterexample. -/
def puC1 : PhaseUsage :=
  { num_phases := 1
    phase_used := fun ph => match ph with | .Vapour => true | _ => false
    phase_pos := fun _ => 0 }

/-- A one-segment multi-segment well with a single open connection. -/
def wellC1 : Well :=
  { name := "M1", isInjector := false, isProducer := true
    status := .OPEN
    isMultiSegment := true
    segments := { segs := [{ segmentNumber := 1, outletSegment := 0 }] }
    connections := [{ state_open := true, segment := 1 }] }

/-- Input state: one perforation whose persisted gas rate is 1. -/
def wsC1 : SingleWellState :=
  { name := "M1", parallel_info := {}, producer := true, status := .OPEN
    surface_rates := [1]
    perf_data := { cell_index := [0], phase_rates := [1] } }

/-- The state `initWellStateMSWell` leaves behind for that well. -/
def wsC1out : SingleWellState :=
  (initWellStateMSWellSingle puC1 wellC1 none wsC1).getD default

/-- Counterexample to C1: a gas perforation rate of 1 becomes a persisted
per-perforation rate of 100 after `initWellStateMSWell`, and
`reportConnections` reports 100 — the scaling leaks into persisted and
reported rates, only the well-level surface rate stays 1. -/
theorem ms_gas_scaling_counterexample :
    wsC1.perf_data.phase_rates = [1] ∧
    wsC1out.perf_data.phase_rates = [100] ∧
    wsC1out.surface_rates = [1] ∧
    ((reportConnections puC1 wsC1out id).getD 0 default).rates RateOpt.gas = 100 ∧
    (100 : ℚ) ≠ 1 := by
  have hout : wsC1out.perf_data.phase_rates = [100] := by
    simp [wsC1out, initWellStateMSWellSingle, segmentPerforations, listAppendAt,
      segmentInlets, WellSegments.segmentNumberToIndex, SegmentState.mk0,
      scaleGasPerfRates, calcSegAux, calcInletLoop, lresize, addPerf, addAt,
      addInlet, qget, segPressureLoop, msCarryover, puC1, wellC1, wsC1,
      PerfData.size, List.range_succ, List.range_zero]
  refine ⟨rfl, hout, ?_, ?_, by norm_num⟩
  · simp [wsC1out, initWellStateMSWellSingle, segmentPerforations, listAppendAt,
      segmentInlets, WellSegments.segmentNumberToIndex, SegmentState.mk0,
      scaleGasPerfRates, calcSegAux, calcInletLoop, lresize, addPerf, addAt,
      addInlet, qget, segPressureLoop, msCarryover, puC1, wellC1, wsC1,
      PerfData.size, List.range_succ, List.range_zero]
  · have hsize : wsC1out.perf_data.size = 1 := by
      simp [wsC1out, initWellStateMSWellSingle, segmentPerforations, listAppendAt,
        segmentInlets, WellSegments.segmentNumberToIndex, SegmentState.mk0,
        scaleGasPerfRates, calcSegAux, calcInletLoop, lresize, addPerf, addAt,
        addInlet, qget, segPressureLoop, msCarryover, puC1, wellC1, wsC1,
        PerfData.size, List.range_succ, List.range_zero]
    rw [reportConnections_gas puC1 wsC1out id (by decide) (by decide) 0
      (by rw [hsize]; decide), hout]
    norm_num [puC1]

/-- Witness for the amended C1 at the same concrete well. -/
theorem ms_gas_scaling_leaks_witness :
    qget wsC1out.perf_data.phase_rates
        (0 * puC1.num_phases + puC1.phase_pos .Vapour) =
      qget wsC1.perf_data.phase_rates
        (0 * puC1.num_phases + puC1.phase_pos .Vapour) * 100 ∧
    wsC1out.surface_rates = wsC1.surface_rates ∧
    ((reportConnections puC1 wsC1out id).getD 0 default).rates RateOpt.gas =
      wsC1out.perf_data.phase_rates.getD
        (puC1.num_phases * 0 + puC1.phase_pos .Vapour) 0 := by
  have hsucc : initWellStateMSWellSingle puC1 wellC1 none wsC1 = some wsC1out := by
    simp [wsC1out, initWellStateMSWellSingle, segmentPerforations, listAppendAt,
      segmentInlets, WellSegments.segmentNumberToIndex, SegmentState.mk0,
      scaleGasPerfRates, calcSegAux, calcInletLoop, lresize, addPerf, addAt,
      addInlet, qget, segPressureLoop, msCarryover, puC1, wellC1, wsC1,
      PerfData.size, List.range_succ, List.range_zero]
  have hsize : 0 < wsC1out.perf_data.size := by
    simp [wsC1out, initWellStateMSWellSingle, segmentPerforations, listAppendAt,
      segmentInlets, WellSegments.segmentNumberToIndex, SegmentState.mk0,
      scaleGasPerfRates, calcSegAux, calcInletLoop, lresize, addPerf, addAt,
      addInlet, qget, segPressureLoop, msCarryover, puC1, wellC1, wsC1,
      PerfData.size, List.range_succ, List.range_zero]
  obtain ⟨h1, h2, h3, h4⟩ := ms_gas_scaling_leaks puC1 wellC1 none wsC1 wsC1out
    (by decide) (by decide) (by decide) hsucc
  exact ⟨h1 0 (by decide) (by decide), h3, h4 id 0 hsize⟩

end Opm
